import Mathlib

/-!
# Verification of msrplib `protocol.py`

A shallow embedding of the MSRP codec and framing state machine from
`msrplib/protocol.py` (class `MSRPProtocol`, class `URI`, the header value
grammars and `MSRPData` accessors), together with theorems settling the
frozen claims about the natural-language specification.

Conventions:
* wire bytes are modelled as `Nat` values (each `0..255` by construction);
* Python `str` values are modelled as `List Char`;
* Python exceptions raised by decoders are modelled with `Except`;
* the line buffering of twisted's `LineReceiver` (the base class of
  `MSRPProtocol`) is modelled explicitly in `loop` below, following the
  upstream `LineReceiver.dataReceived` algorithm.
-/

/-- Wire bytes are natural numbers (0..255 by construction). -/
abbrev Byte := Nat

/-- The characters of a string literal, as a list. -/
def cs (s : String) : List Char := s.data

/-- The bytes of an ASCII string literal. -/
def bs (s : String) : List Byte := s.data.map Char.toNat

/-- Value of a list of decimal digit characters, as produced by Python `int`
on a digit string (most significant digit first, leading zeros allowed). -/
def digitsToNat (ds : List Char) : Nat :=
  ds.foldl (fun a c => 10 * a + (c.toNat - 48)) 0

/-- The decimal digit character for `n < 10`. -/
def digitChar (n : Nat) : Char := Char.ofNat (48 + n)

/-- Decimal digits of `n`, most significant first, accumulator version.
The first argument is fuel, structurally consumed so that the kernel can
evaluate; `natToDigits` supplies `n` itself, which always suffices since
the value shrinks ten-fold per step. -/
def natToDigitsAux : Nat → Nat → List Char → List Char
  | 0, n, acc => digitChar n :: acc
  | fuel + 1, n, acc =>
    if n < 10 then digitChar n :: acc
    else natToDigitsAux fuel (n / 10) (digitChar (n % 10) :: acc)

/-- Decimal representation of a natural number, as produced by Python
`str` on a non-negative `int` (no leading zeros, `0 ↦ "0"`). -/
def natToDigits (n : Nat) : List Char := natToDigitsAux n n []

/-- Decimal representation of an integer, as Python `str` on an `int`. -/
def intToDigits (n : Int) : List Char :=
  if n < 0 then '-' :: natToDigits n.natAbs else natToDigits n.natAbs

/-- Index of the first occurrence of `pat` in `hay`, as Python `bytes.find`
(which returns `-1`, modelled as `none`, when there is no occurrence). -/
def listFind {α} [DecidableEq α] (pat hay : List α) : Option Nat :=
  if pat.isPrefixOf hay then some 0
  else
    match hay with
    | [] => none
    | _ :: t => (listFind pat t).map (· + 1)

/-- Split `hay` around the first occurrence of `pat`, as Python
`split(pat, 1)` when the separator occurs (`none` when it does not). -/
def splitFirst {α} [DecidableEq α] (pat hay : List α) : Option (List α × List α) :=
  (listFind pat hay).map (fun i => (hay.take i, hay.drop (i + pat.length)))

/-- Strict UTF-8 decoding, as Python `bytes.decode('utf-8')`: rejects
continuation errors, overlong encodings, surrogates and values above
`0x10FFFF`; `none` models `UnicodeDecodeError`. -/
def utf8Decode : List Byte → Option (List Char)
  | [] => some []
  | b :: r =>
    if b < 0x80 then (utf8Decode r).map (fun t => Char.ofNat b :: t)
    else if b < 0xC2 then none
    else if b < 0xE0 then
      match r with
      | c1 :: r1 =>
        if 0x80 ≤ c1 ∧ c1 < 0xC0 then
          (utf8Decode r1).map (fun t => Char.ofNat ((b - 0xC0) * 0x40 + (c1 - 0x80)) :: t)
        else none
      | [] => none
    else if b < 0xF0 then
      match r with
      | c1 :: c2 :: r2 =>
        if (if b = 0xE0 then 0xA0 else 0x80) ≤ c1 ∧ c1 < (if b = 0xED then 0xA0 else 0xC0) ∧
            0x80 ≤ c2 ∧ c2 < 0xC0 then
          (utf8Decode r2).map
            (fun t => Char.ofNat ((b - 0xE0) * 0x1000 + (c1 - 0x80) * 0x40 + (c2 - 0x80)) :: t)
        else none
      | _ => none
    else if b < 0xF5 then
      match r with
      | c1 :: c2 :: c3 :: r3 =>
        if (if b = 0xF0 then 0x90 else 0x80) ≤ c1 ∧ c1 < (if b = 0xF4 then 0x90 else 0xC0) ∧
            0x80 ≤ c2 ∧ c2 < 0xC0 ∧ 0x80 ≤ c3 ∧ c3 < 0xC0 then
          (utf8Decode r3).map
            (fun t => Char.ofNat
              ((b - 0xF0) * 0x40000 + (c1 - 0x80) * 0x1000 + (c2 - 0x80) * 0x40 + (c3 - 0x80)) :: t)
        else none
      | _ => none
    else none

/-- UTF-8 encoding, as Python `str.encode('utf-8')`. -/
def utf8Encode : List Char → List Byte
  | [] => []
  | c :: r =>
    let n := c.toNat
    (if n < 0x80 then [n]
     else if n < 0x800 then [0xC0 + n / 0x40, 0x80 + n % 0x40]
     else if n < 0x10000 then [0xE0 + n / 0x1000, 0x80 + n / 0x40 % 0x40, 0x80 + n % 0x40]
     else [0xF0 + n / 0x40000, 0x80 + n / 0x1000 % 0x40, 0x80 + n / 0x40 % 0x40, 0x80 + n % 0x40])
      ++ utf8Encode r

/-! ## The framing state machine (`MSRPProtocol`, protocol.py lines 593-722)

`MSRPProtocol` subclasses twisted's `LineReceiver`; the relevant inherited
state is the delimiter-split input buffer and the line/raw mode flag.  The
events delivered to the sink (`msrp_transport._data_start`, `_data_write`,
`_data_end`, `logger.received_illegal_data`) are collected in a list. -/

/-- Snapshot of `MSRPData` as built by the framer (protocol.py lines 465-487;
the derived `first_line` attribute is omitted as it is a function of
`transaction_id`, `method`, `code` and `comment`). -/
structure MsgData where
  transaction_id : List Char
  method : Option (List Char)
  code : Option Nat
  comment : Option (List Char)
  headers : List (List Char × List Char)
  chunk_header : List Byte
  chunk_footer : Option (List Byte)

deriving DecidableEq, Repr

/-- Sink events emitted by the framer. -/
inductive Ev where
  | dataStart (d : MsgData)
  | dataWrite (b : List Byte) (final : Bool)
  | dataEnd (flag : List Byte)
  | illegal (b : List Byte)

deriving DecidableEq, Repr

/-- Protocol state: `lineMode` and `buffer` belong to the `LineReceiver`
base class; `term_buf`, `data` and `line_count` are `MSRPProtocol.__init__`
state (protocol.py lines 600-606).  `crashed` records that an unhandled
exception escaped (the `continuation.decode()` call in `rawDataReceived`
can raise `UnicodeDecodeError`, after which the reactor drops the
connection and delivers no further bytes). -/
structure PState where
  lineMode : Bool
  buffer : List Byte
  term_buf : List Byte
  data : Option MsgData
  line_count : Nat
  crashed : Bool

deriving DecidableEq, Repr

/-- The `LineReceiver` delimiter (CRLF). -/
def delim : List Byte := [13, 10]

/-- First character class of a transaction id: `[A-Za-z0-9]`. -/
def tidChar1 (c : Char) : Bool := c.isAlphanum

/-- Subsequent character class of a transaction id: `[A-Za-z0-9.+%=-]`. -/
def tidChar (c : Char) : Bool :=
  c.isAlphanum || c = '.' || c = '+' || c = '%' || c = '=' || c = '-'

/-- Method character class: `[A-Z_]`. -/
def methodChar (c : Char) : Bool := ('A' ≤ c && c ≤ 'Z') || c = '_'

/-- Python's `$` regex anchor: matches at the end of the string, or just
before one final newline. -/
def pyDollarEnd (s : List Char) : Bool := s = [] || s = ['\n']

/-- Result of matching `MSRPProtocol.first_line_re` (protocol.py line 595). -/
structure FirstLine where
  tid : List Char
  method : Option (List Char)
  code : Option Nat
  comment : Option (List Char)

deriving DecidableEq, Repr

/-- Matching of `first_line_re`:
`^MSRP ([A-Za-z0-9][A-Za-z0-9.+%=-]{3,31}) (?:([A-Z_]+)|(\d{3})(?: (.+))?)$`.
The character classes of the transaction id and method exclude the space
and the digits are fixed-width, so the backtracking search reduces to
maximal-run scans: the id run must be followed by a space (a shorter
backtracked run would be followed by an id character), the method
alternative succeeds only on a maximal `[A-Z_]+` run reaching the anchor,
and the comment is the maximal `.+` run (with `.` excluding newline). -/
def firstLineParse (l : List Char) : Option FirstLine :=
  match l with
  | 'M' :: 'S' :: 'R' :: 'P' :: ' ' :: r =>
    match r with
    | c0 :: r1 =>
      if tidChar1 c0 then
        let run := r1.takeWhile tidChar
        let rest := r1.dropWhile tidChar
        if 3 ≤ run.length ∧ run.length ≤ 31 then
          match rest with
          | ' ' :: r2 =>
            let m := r2.takeWhile methodChar
            let mrest := r2.dropWhile methodChar
            if m ≠ [] ∧ pyDollarEnd mrest then
              some ⟨c0 :: run, some m, none, none⟩
            else
              match r2 with
              | d1 :: d2 :: d3 :: r3 =>
                if d1.isDigit ∧ d2.isDigit ∧ d3.isDigit then
                  let code := digitsToNat [d1, d2, d3]
                  if pyDollarEnd r3 then some ⟨c0 :: run, none, some code, none⟩
                  else
                    match r3 with
                    | ' ' :: ct =>
                      let cm := ct.takeWhile (fun c => c ≠ '\n')
                      let crest := ct.dropWhile (fun c => c ≠ '\n')
                      if cm ≠ [] ∧ pyDollarEnd crest then
                        some ⟨c0 :: run, none, some code, some cm⟩
                      else none
                    | _ => none
                else none
              | _ => none
          | _ => none
        else none
      else none
    | [] => none
  | _ => none

/-- Matching of the bodyless end-line pattern `^-------tid([$#+])$` set on
`term_re` when a first line is accepted (protocol.py line 684). -/
def endLineParse (tid : List Char) (l : List Char) : Option Char :=
  let pre := cs "-------" ++ tid
  if pre.isPrefixOf l then
    match l.drop pre.length with
    | f :: rest => if (f = '$' || f = '#' || f = '+') && pyDollarEnd rest then some f else none
    | [] => none
  else none

/-- `MSRPData.add_header` (protocol.py lines 524-525): dictionary update,
keeping the original position on replacement. -/
def addHeader (hs : List (List Char × List Char)) (name val : List Char) :
    List (List Char × List Char) :=
  if hs.any (fun p => p.1 = name) then
    hs.map (fun p => if p.1 = name then (name, val) else p)
  else hs ++ [(name, val)]

/-- The terminator `'\r\n-------' + transaction_id` (protocol.py line 643). -/
def terminatorChars (tid : List Char) : List Char := cs "\r\n-------" ++ tid

/-- Encoded terminator bytes (protocol.py lines 691-692). -/
def terminatorBytes (tid : List Char) : List Byte := utf8Encode (terminatorChars tid)

/-- `term_substrings` (protocol.py lines 647-648): all non-empty prefixes of
the terminator, then the terminator extended by each prefix of
`flag + '\r\n'` of lengths 1 and 2, the whole list reversed. -/
def termSubstrings (tid : List Char) : List (List Char) :=
  let t := terminatorChars tid
  (((List.range t.length).map (fun i => t.take (i + 1)))
    ++ [t ++ ['$'], t ++ ['$', '\r'], t ++ ['#'], t ++ ['#', '\r'],
        t ++ ['+'], t ++ ['+', '\r']]).reverse

/-- `MSRPProtocol.lineReceived` (protocol.py lines 618-686).  The
`term_re` assigned when entering raw mode (line 646) is never consulted —
raw mode uses `bytes.find` and every return to the headers state first
reassigns `term_re` at line 684 — so it is not part of the state. -/
def lineReceived (s : PState) (line : List Byte) : PState × List Ev :=
  let decoded := utf8Decode line
  match s.data with
  | some d =>
    if line = [] then
      let d := { d with chunk_header := d.chunk_header ++ delim }
      ({ s with lineMode := false, term_buf := [], data := some d }, [Ev.dataStart d])
    else
      match decoded.bind (fun dl => if dl ≠ [] then endLineParse d.transaction_id dl else none) with
      | some f =>
        let d := { d with chunk_footer := some (line ++ delim) }
        ({ s with data := none, line_count := 0 }, [Ev.dataStart d, Ev.dataEnd (utf8Encode [f])])
      | none =>
        let d := { d with chunk_header := d.chunk_header ++ line ++ delim }
        let lc := s.line_count + 1
        if 64 < lc then
          ({ s with data := none, line_count := 0 }, [Ev.illegal d.chunk_header])
        else
          match decoded.bind (fun dl => splitFirst (cs ": ") dl) with
          | none => ({ s with data := some d, line_count := lc }, [])
          | some (name, val) =>
            ({ s with
                data := some { d with headers := addHeader d.headers name val },
                line_count := lc }, [])
  | none =>
    match decoded.bind (fun dl => if dl ≠ [] then firstLineParse dl else none) with
    | some fl =>
      ({ s with data := some ⟨fl.tid, fl.method, fl.code, fl.comment, [],
          line ++ delim, none⟩ }, [])
    | none => (s, [Ev.illegal (line ++ delim)])

/-- `MSRPProtocol.rawDataReceived` (protocol.py lines 688-719).  The
returned state's `buffer` receives the bytes passed to `setLineMode`,
which the base class appends to its (empty at this point) buffer.  The
negative-index arithmetic of `leftover[:-1]` and
`leftover[continuation_position+len(continuation)+1:]` for
`continuation_position = -1` is reproduced with truncated subtraction. -/
def rawDataReceived (s : PState) (incoming : List Byte) : PState × List Ev :=
  match s.data with
  | none => ({ s with crashed := true }, [])
  | some d =>
    let dat := s.term_buf ++ incoming
    let term := terminatorBytes d.transaction_id
    match listFind term dat with
    | some p =>
      let contents := dat.take p
      let leftover := dat.drop (p + term.length)
      let writeEvs := if contents ≠ [] then [Ev.dataWrite contents true] else []
      let cx :=
        match listFind delim leftover with
        | some q => (leftover.take q, leftover.drop (2 * q + 1))
        | none => (leftover.take (leftover.length - 1), leftover.drop (leftover.length - 1))
      match utf8Decode cx.1 with
      | none => ({ s with crashed := true }, writeEvs)
      | some _ =>
        ({ s with
            lineMode := true,
            data := none,
            line_count := 0,
            buffer := s.buffer ++ cx.2 }, writeEvs ++ [Ev.dataEnd cx.1])
    | none =>
      match (termSubstrings d.transaction_id).find?
          (fun t => dat ≠ [] && (utf8Encode t).isSuffixOf dat) with
      | some t =>
        let n := (utf8Encode t).length
        ({ s with term_buf := dat.drop (dat.length - n) },
         [Ev.dataWrite (dat.take (dat.length - n)) false])
      | none => ({ s with term_buf := [] }, [Ev.dataWrite dat false])

/-- Termination measure for the receive loop: the raw-mode prefix
`term_buf` counts because a found terminator re-injects bytes that were
drawn from it back into the line buffer. -/
def pMeasure (s : PState) : Nat :=
  s.buffer.length + (if s.lineMode then 0 else s.term_buf.length)

/-- The receive loop of twisted's `LineReceiver.dataReceived`: while the
buffer is non-empty, in line mode split off one CRLF-terminated line and
pass it to `lineReceived` (discarding the buffer and resetting the message
when a line or the undelimited buffer exceeds `MAX_LENGTH = 16384`, per
`MSRPProtocol.lineLengthExceeded`); in raw mode hand the whole buffer to
`rawDataReceived`.  Bytes passed to `setLineMode` re-enter the buffer.
Once `crashed`, the reactor delivers nothing further. -/
def loopF : Nat → PState → PState × List Ev
  | 0, s => (s, [])
  | fuel + 1, s =>
    if s.crashed then (s, [])
    else if s.buffer = [] then (s, [])
    else if s.lineMode then
      match splitFirst delim s.buffer with
      | none =>
        if 16384 < s.buffer.length then
          ({ s with buffer := [], data := none, line_count := 0 }, [])
        else (s, [])
      | some (line, rest) =>
        if 16384 < line.length then
          ({ s with buffer := [], data := none, line_count := 0 }, [])
        else
          let r := lineReceived { s with buffer := rest } line
          let r2 := loopF fuel r.1
          (r2.1, r.2 ++ r2.2)
    else
      let r := rawDataReceived { s with buffer := [] } s.buffer
      if r.1.lineMode then
        let r2 := loopF fuel r.1
        (r2.1, r.2 ++ r2.2)
      else (r.1, r.2)

/-- The receive loop with exactly enough fuel. -/
def loop (s : PState) : PState × List Ev := loopF (pMeasure s + 1) s

/-- `dataReceived` of the protocol: append the incoming bytes to the
buffer and run the receive loop. -/
def dataReceived (s : PState) (incoming : List Byte) : PState × List Ev :=
  loop { s with buffer := s.buffer ++ incoming }

/-- The freshly constructed protocol (`MSRPProtocol.__init__`). -/
def initialState : PState := ⟨true, [], [], none, 0, false⟩

/-- Deliver a sequence of byte segments, collecting all sink events. -/
def feedAll (s : PState) : List (List Byte) → PState × List Ev
  | [] => (s, [])
  | x :: xs =>
    let r := dataReceived s x
    let r2 := feedAll r.1 xs
    (r2.1, r.2 ++ r2.2)

/-- The events produced from the initial state by a segmented delivery. -/
def runEvents (segs : List (List Byte)) : List Ev := (feedAll initialState segs).2

/-- The state reached from the initial state by a segmented delivery. -/
def runState (segs : List (List Byte)) : PState := (feedAll initialState segs).1

/-! ## The bounded-straddle invariant (claim C3) -/

/-- The straddle invariant: in raw mode a message is under construction and
the retained straddle buffer holds at most `len(terminator) + 2` bytes. -/
def StraddleInv (s : PState) : Prop :=
  s.lineMode = false → ∃ d, s.data = some d ∧
    s.term_buf.length ≤ (terminatorBytes d.transaction_id).length + 2

/-! ## Claim theorems for the framing state machine -/

/-- The message snapshot passed to the sink by the runs used in C1. -/
def msgAbcd : MsgData :=
  ⟨cs "abcd", some (cs "SEND"), none, none, [], bs "MSRP abcd SEND\r\n\r\n", none⟩

/-- Input segments driving the framer into raw mode with a straddling
terminator prefix retained. -/
def segsC3 : List (List Byte) := [bs "MSRP abcd SEND\r\n\r\nBODY\r\n-------ab"]

/-! ## A backtracking matcher for the Python regular expressions of the URI codec

`URI._uri_re` (protocol.py line 751) is matched with Python `re.match`
semantics: leftmost preference, lazy `*?` preferring shortest, greedy `?`
preferring presence, `.` excluding the newline, `$` matching at the end or
before one final newline.  The pattern is linear (no nested repetition of
groups), so a small backtracking matcher over an element list suffices.
Fuel is consumed on every step so the kernel can evaluate; the pair
(input length, pattern weight) shrinks lexicographically on every call,
so `reFuel` units are always enough (`reMatchF_congr`). -/

/-- Elements of a linear Python regex: literal text, a single character
class, a lazy star over a class (`.*?`, `[0-9]*?`), a greedy optional
group, capture delimiters, a trailing greedy `(.*)` capture (maximal run
of non-newline characters), and the `$` anchor. -/
inductive RElem where
  | lit (l : List Char)
  | one (p : Char → Bool)
  | lazyStar (p : Char → Bool)
  | opt (sub : List RElem)
  | startCap (i : Nat)
  | endCap (i : Nat)
  | maxRun (i : Nat)
  | endAnchor

mutual
/-- Weight of a pattern element, decreasing when `opt` expands. -/
def reWeight : RElem → Nat
  | .opt sub => reWeightList sub + 2
  | _ => 1
/-- Total weight of a pattern list. -/
def reWeightList : List RElem → Nat
  | [] => 0
  | e :: t => reWeight e + reWeightList t
end

/-- Group captures: slot `i` holds the text captured by group `i`, `none`
when the group did not participate (Python `groupdict` value `None`). -/
abbrev Caps := List (Option (List Char))

/-- Open captures: pending `startCap` positions (the input suffix at the
group start). -/
abbrev Opens := List (Nat × List Char)

/-- The backtracking matcher.  Returns the captures of the leftmost match
of the pattern against a prefix of the input (as Python `re.match`), or
`none` when there is no match. -/
def reMatchF : Nat → List RElem → List Char → Opens → Caps → Option Caps
  | 0, _, _, _, _ => none
  | _ + 1, [], _, _, caps => some caps
  | fuel + 1, .lit l :: ps, s, o, caps =>
    if l.isPrefixOf s then reMatchF fuel ps (s.drop l.length) o caps else none
  | fuel + 1, .one p :: ps, s, o, caps =>
    match s with
    | [] => none
    | c :: t => if p c then reMatchF fuel ps t o caps else none
  | fuel + 1, .lazyStar p :: ps, s, o, caps =>
    match reMatchF fuel ps s o caps with
    | some r => some r
    | none =>
      match s with
      | [] => none
      | c :: t => if p c then reMatchF fuel (.lazyStar p :: ps) t o caps else none
  | fuel + 1, .opt sub :: ps, s, o, caps =>
    match reMatchF fuel (sub ++ ps) s o caps with
    | some r => some r
    | none => reMatchF fuel ps s o caps
  | fuel + 1, .startCap i :: ps, s, o, caps => reMatchF fuel ps s ((i, s) :: o) caps
  | fuel + 1, .endCap i :: ps, s, o, caps =>
    match o.find? (fun pr => pr.1 = i) with
    | some pr => reMatchF fuel ps s o (caps.set i (some (pr.2.take (pr.2.length - s.length))))
    | none => reMatchF fuel ps s o caps
  | fuel + 1, .maxRun i :: ps, s, o, caps =>
    reMatchF fuel ps (s.dropWhile (fun c => c ≠ '\n')) o
      (caps.set i (some (s.takeWhile (fun c => c ≠ '\n'))))
  | fuel + 1, .endAnchor :: ps, s, o, caps =>
    if s = [] ∨ s = ['\n'] then reMatchF fuel ps s o caps else none

/-- Canonical fuel: strictly more than the number of matcher steps from
`(ps, s)`, since `(input length, weight)` shrinks lexicographically. -/
def reFuel (ps : List RElem) (s : List Char) : Nat :=
  (s.length + 1) * (reWeightList ps + 1)

/-- The matcher at canonical (always sufficient) fuel. -/
def reMatch (ps : List RElem) (s : List Char) (o : Opens) (caps : Caps) : Option Caps :=
  reMatchF (reFuel ps s) ps s o caps

/-! ## The URI codec (`URI`, protocol.py lines 750-816) -/

/-- The class of `.` in a Python regex without `DOTALL`: any character
except the newline. -/
def anyChar (c : Char) : Bool := c ≠ '\n'

/-- The class `[0-9]`. -/
def digitClass (c : Char) : Bool := '0' ≤ c && c ≤ '9'

/-- `URI._uri_re` (protocol.py line 751):
`^(?P<scheme>.*?)://(((?P<user>.*?)@)?(?P<host>.*?)(:(?P<port>[0-9]+?))?)(/(?P<session_id>.*?))?;(?P<transport>.*?)(;(?P<parameters>.*))?$`
as a linear pattern; capture slots 0-6 are scheme, user, host, port,
session_id, transport, parameters.  The final greedy `(.*)` is `maxRun`
(with the following `$`, the greedy star matches exactly the maximal
newline-free run or nothing at all).  The pieces are named below and
assembled into `uriPattern`.

The optional user group `((?P<user>.*?)@)?`: -/
def uriOptUser : RElem := .opt [.startCap 1, .lazyStar anyChar, .endCap 1, .lit (cs "@")]

/-- The optional port group `(:(?P<port>[0-9]+?))?`. -/
def uriOptPort : RElem :=
  .opt [.lit (cs ":"), .startCap 3, .one digitClass, .lazyStar digitClass, .endCap 3]

/-- The optional session group `(/(?P<session_id>.*?))?`. -/
def uriOptSess : RElem := .opt [.lit (cs "/"), .startCap 4, .lazyStar anyChar, .endCap 4]

/-- The optional parameter group `(;(?P<parameters>.*))?`. -/
def uriOptParams : RElem := .opt [.lit (cs ";"), .maxRun 6]

/-- The transport and parameter tail `(?P<transport>.*?)(;(?P<parameters>.*))?$`. -/
def uriTrans : List RElem :=
  [.startCap 5, .lazyStar anyChar, .endCap 5, uriOptParams, .endAnchor]

def uriPattern : List RElem :=
  [.startCap 0, .lazyStar anyChar, .endCap 0, .lit (cs "://"), uriOptUser,
   .startCap 2, .lazyStar anyChar, .endCap 2, uriOptPort, uriOptSess,
   .lit (cs ";")] ++ uriTrans

/-- Captured group `i`, `none` when the group did not participate. -/
def capGet (caps : Caps) (i : Nat) : Option (List Char) := (caps.get? i).join

/-- Python `str.split(sep)` for a one-character separator: splits at every
occurrence, keeping empty parts. -/
def splitChar (sep : Char) : List Char → List (List Char)
  | [] => [[]]
  | c :: t =>
    let r := splitChar sep t
    if c = sep then [] :: r
    else
      match r with
      | h :: t2 => (c :: h) :: t2
      | [] => [[c]]

/-- One `name=value` parameter: Python `param.split('=')` must produce
exactly two parts (`dict` raises `ValueError` otherwise). -/
def paramPair (p : List Char) : Option (List Char × List Char) :=
  match splitChar '=' p with
  | [a, b] => some (a, b)
  | _ => none

/-- Python `dict` insertion: replacement keeps the original position. -/
def pyDictInsert (m : List (List Char × List Char)) (k v : List Char) :
    List (List Char × List Char) :=
  if m.any (fun pr => pr.1 = k) then
    m.map (fun pr => if pr.1 = k then (k, v) else pr)
  else m ++ [(k, v)]

/-- `dict(param.split('=') for param in parameters.split(';'))`
(protocol.py line 784); `none` models the `ValueError`. -/
def parseParams (t : List Char) : Option (List (List Char × List Char)) :=
  ((splitChar ';' t).mapM paramPair).map
    (fun prs => prs.foldl (fun m pr => pyDictInsert m pr.1 pr.2) [])

deriving instance DecidableEq for Except

/-- Errors raised by `URI.parse` (all are `ParsingError` in the source;
the constructor records which message). -/
inductive UriErr where
  | cannotParse
  | invalidScheme (s : List Char)
  | invalidTransport (t : List Char)
  | cannotParseParameters

deriving DecidableEq, Repr

/-- The result of `URI.parse` before `URI.__init__` applies defaults:
`port = none` keeps the class default 2855, `session_id = none` draws a
random 80-bit token in `__init__`, `parameters = []` for an absent group. -/
structure ParsedURI where
  use_tls : Bool
  user : Option (List Char)
  host : List Char
  port : Option Nat
  session_id : Option (List Char)
  transport : List Char
  parameters : List (List Char × List Char)

deriving DecidableEq, Repr

/-- `URI.parse` (protocol.py lines 765-788). -/
def URI.parse (value : List Char) : Except UriErr ParsedURI :=
  match reMatch uriPattern value [] (List.replicate 7 none) with
  | none => .error .cannotParse
  | some caps =>
    let scheme := (capGet caps 0).getD []
    if scheme = cs "msrp" ∨ scheme = cs "msrps" then
      let transport := (capGet caps 5).getD []
      if transport = cs "tcp" then
        let port := (capGet caps 3).map digitsToNat
        match capGet caps 6 with
        | none =>
          .ok ⟨scheme = cs "msrps", capGet caps 1, (capGet caps 2).getD [], port,
            capGet caps 4, transport, []⟩
        | some ptext =>
          match parseParams ptext with
          | none => .error .cannotParseParameters
          | some prs =>
            .ok ⟨scheme = cs "msrps", capGet caps 1, (capGet caps 2).getD [], port,
              capGet caps 4, transport, prs⟩
      else .error (.invalidTransport transport)
    else .error (.invalidScheme scheme)

/-! ### The non-numeric-port family (claim C6) -/

/-- Lowercase ASCII letters, the character family used for the
non-numeric port text. -/
def lcLetter (c : Char) : Bool := 'a' ≤ c && c ≤ 'z'

/-! ### URI object comparison and hashing (protocol.py lines 801-815) -/

/-- Python `str.lower()` restricted to ASCII, which is all the source ever
compares (hosts and transports). -/
def pyLower (s : List Char) : List Char := s.map Char.toLower

/-- The URI object as built by `URI.__init__`: after the constructor,
`port` is an `int` (defaulting to 2855) and `session_id` a `str`. -/
structure URIObj where
  use_tls : Bool
  user : Option (List Char)
  host : List Char
  port : Nat
  session_id : List Char
  transport : List Char
  parameters : List (List Char × List Char)

deriving DecidableEq, Repr

/-- The comparison tuple of `URI.__eq__` (protocol.py line 806):
`self.use_tls, self.host.lower(), self.port, self.session_id,
self.transport.lower()`. -/
def URIObj.key (u : URIObj) : Bool × List Char × Nat × List Char × List Char :=
  (u.use_tls, pyLower u.host, u.port, u.session_id, pyLower u.transport)

/-- `URI.__eq__` (protocol.py lines 801-809): tuple comparison of the keys. -/
def uriEq (u v : URIObj) : Bool := u.key = v.key

/-- A deterministic stand-in for CPython's `hash` on the key tuple: the
property under verification needs only that `URI.__hash__` is a function of
the same tuple that `__eq__` compares, which is literally what line 815 of
protocol.py does. -/
def uriHashKey : Bool × List Char × Nat × List Char × List Char → Nat
  | (b, h, p, s, t) =>
    let f : Nat → List Char → Nat := fun a l => l.foldl (fun a c => a * 31 + c.toNat) a
    f (f (f ((if b then 1 else 0) * 31 + p) h) s) t

/-- `URI.__hash__` (protocol.py lines 814-815):
`hash((self.use_tls, self.host.lower(), self.port, self.session_id,
self.transport.lower()))`. -/
def uriHash (u : URIObj) : Nat := uriHashKey u.key

/-! ### Byte-Range header (protocol.py lines 100-121, 247-254, 298-300) -/

/-- `ByteRange = namedtuple('ByteRange', ['start', 'end', 'total'])`
(protocol.py line 28); `end` is a reserved word in Lean, so the middle field
is called `stop`. `none` models Python `None` (the `*` wildcard). -/
structure ByteRange where
  start : Nat
  stop : Option Nat
  total : Option Nat

deriving DecidableEq, Repr

/-- One `\*|\d+` alternative of `ByteRangeHeaderType.regex`: `*` first, else
a maximal nonempty digit run (greedy `\d+`; no shorter run can succeed since
the character after it is a digit, which the following literal is not). -/
def starOrNum (s : List Char) : Option (Option Nat × List Char) :=
  if s.head? = some '*' then some (none, s.tail)
  else
    let ds := s.takeWhile Char.isDigit
    if ds = [] then none else some (some (digitsToNat ds), s.dropWhile Char.isDigit)

/-- `ByteRangeHeaderType.decode` (protocol.py lines 105-116):
`re.match` of `(?P<start>\d+)-(?P<end>\*|\d+)/(?P<total>\*|\d+)` — anchored
at the start only, so trailing text is ignored — then `int` on the digit
groups with `*` becoming `None`; `none` models the `ValueError`. -/
def ByteRangeHeaderType.decode (encoded : List Char) : Option ByteRange :=
  let ds := encoded.takeWhile Char.isDigit
  if ds = [] then none
  else
    let r1 := encoded.dropWhile Char.isDigit
    if r1.head? = some '-' then
      match starOrNum r1.tail with
      | none => none
      | some (e, r3) =>
        if r3.head? = some '/' then
          match starOrNum r3.tail with
          | none => none
          | some (t, _) => some ⟨digitsToNat ds, e, t⟩
        else none
    else none

/-- `'*' if x is None else x` as it appears in `ByteRangeHeaderType.encode`. -/
def brOpt : Option Nat → List Char
  | none => ['*']
  | some k => natToDigits k

/-- `ByteRangeHeaderType.encode` (protocol.py lines 118-121):
`'{}-{}/{}'.format(start, '*' if end is None else end,
'*' if total is None else total)`. -/
def ByteRangeHeaderType.encode (d : ByteRange) : List Char :=
  natToDigits d.start ++ ('-' :: (brOpt d.stop ++ ('/' :: brOpt d.total)))

/-- `MSRPHeader.decoded` for a `ByteRangeHeader` (protocol.py lines 247-254,
298-300): a decode failure is re-raised as
`HeaderParsingError(self.name, str(e))`, the name being `'Byte-Range'`. -/
def ByteRangeHeader.decoded (encoded : List Char) :
    Except (List Char × List Char) ByteRange :=
  match ByteRangeHeaderType.decode encoded with
  | some v => .ok v
  | none => .error (cs "Byte-Range", encoded)

/-! ### Report headers and MSRPData report properties
(protocol.py lines 84-98, 412-413, 559-565) -/

/-- `MissingHeader.decoded = None` (protocol.py lines 412-413). -/
def MissingHeader.decoded : Option (List Char) := none

/-- Python `x or default` for an optional string `x`: `None` and the empty
string are falsy. -/
def pyOr (v : Option (List Char)) (d : List Char) : List Char :=
  match v with
  | none => d
  | some s => if s = [] then d else s

/-- `FailureReportHeaderType.decode` (protocol.py lines 84-98):
`LimitedChoiceHeaderType.decode` with `allowed_values` frozenset
`{'yes', 'no', 'partial'}`; `none` models the `ValueError`. -/
def FailureReportHeaderType.decode (encoded : List Char) : Option (List Char) :=
  if encoded = cs "yes" ∨ encoded = cs "no" ∨ encoded = cs "partial" then some encoded
  else none

/-- `SuccessReportHeaderType.decode` (protocol.py lines 84-94):
allowed values `{'yes', 'no'}`. -/
def SuccessReportHeaderType.decode (encoded : List Char) : Option (List Char) :=
  if encoded = cs "yes" ∨ encoded = cs "no" then some encoded
  else none

/-- `MSRPData.failure_report` (protocol.py lines 559-561):
`self.headers.get('Failure-Report', MissingHeader).decoded or 'yes'`; the
header map is name–encoded-value pairs, `none` models the
`HeaderParsingError` escaping from `MSRPHeader.decoded`. -/
def MSRPData.failure_report (headers : List (List Char × List Char)) :
    Option (List Char) :=
  match headers.find? (fun p => p.1 = cs "Failure-Report") with
  | none => some (pyOr MissingHeader.decoded (cs "yes"))
  | some p =>
    match FailureReportHeaderType.decode p.2 with
    | none => none
    | some v => some (pyOr (some v) (cs "yes"))

/-- `MSRPData.success_report` (protocol.py lines 563-565):
`self.headers.get('Success-Report', MissingHeader).decoded or 'no'`. -/
def MSRPData.success_report (headers : List (List Char × List Char)) :
    Option (List Char) :=
  match headers.find? (fun p => p.1 = cs "Success-Report") with
  | none => some (pyOr MissingHeader.decoded (cs "no"))
  | some p =>
    match SuccessReportHeaderType.decode p.2 with
    | none => none
    | some v => some (pyOr (some v) (cs "no"))

/-! ### Remaining header grammars (protocol.py lines 36-188) -/

/-- `SimpleHeaderType.decode` (protocol.py lines 36-45): the identity. -/
def SimpleHeaderType.decode (encoded : List Char) : List Char := encoded

/-- `SimpleHeaderType.encode`: the identity. -/
def SimpleHeaderType.encode (decoded : List Char) : List Char := decoded

/-- Python `int(s)` on a decimal string: an optional sign followed by at
least one digit (`none` models the `ValueError`). -/
def pyIntParse (s : List Char) : Option Int :=
  match s with
  | '-' :: d =>
    if d ≠ [] ∧ ∀ c ∈ d, c.isDigit = true then some (-(digitsToNat d : Int)) else none
  | d =>
    if d ≠ [] ∧ ∀ c ∈ d, c.isDigit = true then some (digitsToNat d : Int) else none

/-- `IntegerHeaderType.decode` (protocol.py lines 71-77): `int(encoded)`. -/
def IntegerHeaderType.decode (encoded : List Char) : Option Int := pyIntParse encoded

/-- `IntegerHeaderType.encode`: `str(decoded)`. -/
def IntegerHeaderType.encode (decoded : Int) : List Char := intToDigits decoded

/-- Python's `\w` for the ASCII values the grammar feeds it. -/
def isWordChar (c : Char) : Bool := c.isAlphanum || c = '_'

/-- One attempt of `(\w+)=("[^"]+"|[^"X]+)` at the start of `s` (`X` is the
second excluded character: `,` for parameter lists, `;` for
content-disposition): a maximal `\w` run, `=`, then either a quoted
nonempty quote-free span or a maximal nonempty span excluding `"` and `X`.
Backtracking cannot rescue a failure: a shorter `\w+` run is followed by a
word character, never `=`, and the unquoted alternative cannot start at the
`"` that made the quoted alternative fail. Returns the groups (the value
group keeps its quotes, as `re.findall` does) and the rest of the input. -/
def matchKV (excl : Char) (s : List Char) : Option ((List Char × List Char) × List Char) :=
  let name := s.takeWhile isWordChar
  if name = [] then none
  else
    let r1 := s.dropWhile isWordChar
    if r1.head? = some '=' then
      let r2 := r1.tail
      if r2.head? = some '"' then
        let v := r2.tail.takeWhile (fun c => c != '"')
        if v = [] then none
        else
          match r2.tail.dropWhile (fun c => c != '"') with
          | '"' :: r3 => some ((name, '"' :: (v ++ ['"'])), r3)
          | _ => none
      else
        let v := r2.takeWhile (fun c => c != '"' && c != excl)
        if v = [] then none
        else some ((name, v), r2.dropWhile (fun c => c != '"' && c != excl))
    else none

/-- `re.findall` of the key–value regex: repeatedly try to match from the
current position, emitting the groups and resuming after the match, else
advance one character. Fuel-based so the kernel can evaluate; each step
consumes at least one character, so the input length is enough fuel. -/
def findallF (excl : Char) : Nat → List Char → List (List Char × List Char)
  | 0, _ => []
  | _ + 1, [] => []
  | fuel + 1, c :: u =>
    match matchKV excl (c :: u) with
    | some (kv, r) => kv :: findallF excl fuel r
    | none => findallF excl fuel u

/-- `cls.regex.findall(s)` for the parameter grammars. -/
def reFindall (excl : Char) (s : List Char) : List (List Char × List Char) :=
  findallF excl s.length s

/-- Python `value.strip('"')`: removes every leading and trailing `"`. -/
def pyStripQuotes (v : List Char) : List Char :=
  ((v.dropWhile (fun c => c = '"')).reverse.dropWhile (fun c => c = '"')).reverse

/-- Python `s.partition(sep)` for a one-character separator: splits at the
first occurrence; the `Bool` records whether the separator was found
(Python returns the separator itself or `''`). -/
def pyPartition (sep : Char) : List Char → List Char × Bool × List Char
  | [] => ([], false, [])
  | c :: u =>
    if c = sep then ([], true, u)
    else
      let r := pyPartition sep u
      (c :: r.1, r.2.1, r.2.2)

/-- `ParameterListHeaderType.decode` (protocol.py lines 164-172):
`{name: value.strip('"') for name, value in cls.regex.findall(encoded)}`. -/
def ParameterListHeaderType.decode (encoded : List Char) :
    List (List Char × List Char) :=
  (reFindall ',' encoded).foldl
    (fun m pr => pyDictInsert m pr.1 (pyStripQuotes pr.2)) []

/-- Python `sep.join(items)`. -/
def joinSep (sep : List Char) : List (List Char) → List Char
  | [] => []
  | [x] => x
  | x :: xs => x ++ sep ++ joinSep sep xs

/-- `'{}="{}"'.format(name, value)`: one encoded key–value item. -/
def kvItem (pr : List Char × List Char) : List Char :=
  pr.1 ++ '=' :: '"' :: (pr.2 ++ ['"'])

/-- `ParameterListHeaderType.encode` (protocol.py lines 174-176):
`', '.join('{}="{}"'.format(name, value) for name, value in decoded.items())`. -/
def ParameterListHeaderType.encode (decoded : List (List Char × List Char)) :
    List Char :=
  joinSep (cs ", ") (decoded.map kvItem)

/-- `ContentDisposition = namedtuple(..., ['disposition', 'parameters'])`. -/
structure ContentDisposition where
  disposition : List Char
  parameters : List (List Char × List Char)

deriving DecidableEq, Repr

/-- `ContentDispositionHeaderType.decode` (protocol.py lines 146-156):
partition at the first `;`, reject an empty disposition, `findall` the
key–value pairs (excluded character `;`) in the remainder. -/
def ContentDispositionHeaderType.decode (encoded : List Char) :
    Option ContentDisposition :=
  let p := pyPartition ';' encoded
  if p.1 = [] then none
  else some ⟨p.1, (reFindall ';' p.2.2).foldl
    (fun m pr => pyDictInsert m pr.1 (pyStripQuotes pr.2)) []⟩

/-- `ContentDispositionHeaderType.encode` (protocol.py lines 158-161):
`'; '.join([disposition] + ['{}="{}"'.format(name, value) ...])`. -/
def ContentDispositionHeaderType.encode (decoded : ContentDisposition) : List Char :=
  joinSep (cs "; ") (decoded.disposition :: decoded.parameters.map kvItem)

/-- `DigestHeaderType.decode` (protocol.py lines 179-185): partition at the
first space, require the algorithm word `Digest`, then the parameter-list
decode of the remainder. -/
def DigestHeaderType.decode (encoded : List Char) :
    Option (List (List Char × List Char)) :=
  let p := pyPartition ' ' encoded
  if p.1 = cs "Digest" ∧ p.2.1 = true then some (ParameterListHeaderType.decode p.2.2)
  else none

/-- `DigestHeaderType.encode` (protocol.py lines 187-188). -/
def DigestHeaderType.encode (decoded : List (List Char × List Char)) : List Char :=
  cs "Digest " ++ ParameterListHeaderType.encode decoded

/-- `Status = namedtuple('Status', ['code', 'comment'])` (protocol.py
line 29). -/
structure Status where
  code : Nat
  comment : Option (List Char)

deriving DecidableEq, Repr

/-- `'{:03d}'.format(code)` for a status code: pad to three digits. -/
def pad3 (n : Nat) : List Char :=
  List.replicate (3 - (natToDigits n).length) '0' ++ natToDigits n

/-- `StatusHeaderType.decode` (protocol.py lines 124-136): partition at the
first space, require namespace `000` and the separator present, partition
the rest, require a 3-digit code, `comment or None`. -/
def StatusHeaderType.decode (encoded : List Char) : Option Status :=
  let p := pyPartition ' ' encoded
  if p.1 = cs "000" ∧ p.2.1 = true then
    let q := pyPartition ' ' p.2.2
    if q.1 ≠ [] ∧ (∀ c ∈ q.1, c.isDigit = true) ∧ q.1.length = 3 then
      some ⟨digitsToNat q.1, if q.2.2 = [] then none else some q.2.2⟩
    else none
  else none

/-- `StatusHeaderType.encode` (protocol.py lines 138-143). -/
def StatusHeaderType.encode (decoded : Status) : List Char :=
  match decoded.comment with
  | none => cs "000 " ++ pad3 decoded.code
  | some cm => cs "000 " ++ pad3 decoded.code ++ ' ' :: cm

/-! ## Theorems -/

/-! ### Support lemmas for the receive loop -/

theorem listFind_decomp {α} [DecidableEq α] {pat : List α} :
    ∀ {hay : List α} {i : Nat}, listFind pat hay = some i →
      ∃ a b, hay = a ++ pat ++ b ∧ a.length = i := by
  intro hay
  induction hay with
  | nil =>
    intro i h
    rw [listFind] at h
    split at h
    · next hp =>
      simp at h
      have hp := List.isPrefixOf_iff_prefix.mp hp
      have hnil : pat = [] := List.prefix_nil.mp hp
      exact ⟨[], [], by simp [hnil], by simpa using h⟩
    · simp at h
  | cons a t ih =>
    intro i h
    rw [listFind] at h
    split at h
    · next hp =>
      simp at h
      have hp := List.isPrefixOf_iff_prefix.mp hp
      obtain ⟨u, hu⟩ := hp
      exact ⟨[], u, by simp [← hu], by simpa using h⟩
    · cases hm : listFind pat t with
      | none => rw [hm] at h; simp at h
      | some j =>
        rw [hm] at h
        simp at h
        obtain ⟨a', b', ht, hlen⟩ := ih hm
        exact ⟨a :: a', b', by simp [ht], by simp [hlen, ← h]⟩

theorem splitFirst_decomp {α} [DecidableEq α] {pat hay a b : List α}
    (h : splitFirst pat hay = some (a, b)) :
    hay = a ++ pat ++ b := by
  unfold splitFirst at h
  cases hf : listFind pat hay with
  | none => rw [hf] at h; simp at h
  | some i =>
    rw [hf] at h
    simp at h
    obtain ⟨a', b', hd, hlen⟩ := listFind_decomp hf
    obtain ⟨ha, hb⟩ := h
    subst ha hb hlen
    rw [hd]
    have h1 : (a' ++ pat ++ b').take a'.length = a' := by
      rw [List.append_assoc]
      exact List.take_left' rfl
    have h2 : (a' ++ pat ++ b').drop (a'.length + pat.length) = b' := by
      exact List.drop_left' (by simp)
    rw [h1, h2]

theorem utf8Encode_append (xs ys : List Char) :
    utf8Encode (xs ++ ys) = utf8Encode xs ++ utf8Encode ys := by
  induction xs with
  | nil => simp [utf8Encode]
  | cons c r ih => simp [utf8Encode, ih]

theorem terminatorBytes_eq (tid : List Char) :
    terminatorBytes tid = bs "\r\n-------" ++ utf8Encode tid := by
  rw [terminatorBytes, terminatorChars, utf8Encode_append]
  rfl

theorem terminatorBytes_length (tid : List Char) : 9 ≤ (terminatorBytes tid).length := by
  rw [terminatorBytes_eq]
  simp [bs]

theorem lineReceived_buffer (s : PState) (l : List Byte) :
    ((lineReceived s l).1).buffer = s.buffer := by
  rw [lineReceived]
  dsimp only
  repeat' split
  all_goals rfl

theorem lineReceived_term_buf (s : PState) (l : List Byte)
    (hm : s.lineMode = true) :
    ((lineReceived s l).1).lineMode = false → ((lineReceived s l).1).term_buf = [] := by
  rw [lineReceived]
  dsimp only
  repeat' split
  all_goals intro hr
  all_goals first
  | rfl
  | (simp at hr; exact absurd hm (by simp [hr]))

theorem rawDataReceived_buffer_lt (s : PState) (x : List Byte)
    (hm : s.lineMode = false)
    (hl : ((rawDataReceived s x).1).lineMode = true) :
    ((rawDataReceived s x).1).buffer.length <
      s.buffer.length + (s.term_buf.length + x.length) := by
  rw [rawDataReceived] at hl ⊢
  split at hl
  · simp at hl; exact absurd hm (by simp [hl])
  · next d hd =>
    dsimp only at hl ⊢
    split at hl
    · next p hp =>
      obtain ⟨a, b, hdec, hlen⟩ := listFind_decomp hp
      have hterm := terminatorBytes_length d.transaction_id
      have hdatlen : s.term_buf.length + x.length =
          a.length + ((terminatorBytes d.transaction_id).length + b.length) := by
        have hcong := congrArg List.length hdec
        simp at hcong
        omega
      split at hl
      · simp at hl; exact absurd hm (by simp [hl])
      · dsimp only
        have hlef : ((s.term_buf ++ x).drop
            (p + (terminatorBytes d.transaction_id).length)).length ≤ b.length := by
          simp [List.length_drop]
          omega
        split
        · next q hq =>
          simp only [List.length_append, List.length_drop]
          simp [List.length_drop] at hlef
          omega
        · next hq =>
          simp only [List.length_append, List.length_drop]
          simp [List.length_drop] at hlef
          omega
    · split at hl
      · simp at hl; exact absurd hm (by simp [hl])
      · simp at hl; exact absurd hm (by simp [hl])

/-- Each loop iteration strictly decreases `pMeasure`, so `pMeasure s + 1`
units of fuel always suffice; `loopF` is insensitive to any sufficient
fuel amount. -/
theorem loopF_congr :
    ∀ (n : Nat) (m : Nat) (s : PState), pMeasure s < n → pMeasure s < m →
      loopF n s = loopF m s := by
  intro n
  induction n using Nat.strong_induction_on with
  | _ n ih =>
    intro m s hn hm
    cases n with
    | zero => omega
    | succ n =>
      cases m with
      | zero => omega
      | succ m =>
        rw [loopF, loopF]
        dsimp only
        by_cases hc : s.crashed = true
        · rw [if_pos hc, if_pos hc]
        · rw [if_neg hc, if_neg hc]
          by_cases hb : s.buffer = []
          · rw [if_pos hb, if_pos hb]
          · rw [if_neg hb, if_neg hb]
            by_cases hl : s.lineMode = true
            · rw [if_pos hl, if_pos hl]
              cases hsp : splitFirst delim s.buffer with
              | none => simp only [hsp]
              | some lr =>
                obtain ⟨line, rest⟩ := lr
                simp only [hsp]
                by_cases hlen : 16384 < line.length
                · rw [if_pos hlen, if_pos hlen]
                · rw [if_neg hlen, if_neg hlen]
                  have hbuf : s.buffer = line ++ delim ++ rest := splitFirst_decomp hsp
                  have hblen : s.buffer.length = line.length + 2 + rest.length := by
                    rw [hbuf]; simp [delim]; omega
                  have h1 : ((lineReceived { s with buffer := rest } line).1).buffer = rest :=
                    lineReceived_buffer _ _
                  have hdec : pMeasure ((lineReceived { s with buffer := rest } line).1) <
                      pMeasure s := by
                    unfold pMeasure
                    rw [h1, if_pos hl]
                    by_cases hlr :
                        ((lineReceived { s with buffer := rest } line).1).lineMode = true
                    · rw [if_pos hlr]; omega
                    · have ht := lineReceived_term_buf { s with buffer := rest } line
                        (by simpa using hl) (by simpa using hlr)
                      rw [if_neg hlr, ht]
                      simp
                      omega
                  rw [ih n (by omega) m ((lineReceived { s with buffer := rest } line).1)
                    (by omega) (by omega)]
            · rw [if_neg hl, if_neg hl]
              by_cases hr :
                  ((rawDataReceived { s with buffer := ([] : List Byte) } s.buffer).1).lineMode
                    = true
              · rw [if_pos hr, if_pos hr]
                have hm2 : ({ s with buffer := ([] : List Byte) } : PState).lineMode = false := by
                  simpa using hl
                have hlt := rawDataReceived_buffer_lt { s with buffer := [] } s.buffer hm2 hr
                dsimp only at hlt
                have hdec : pMeasure
                    ((rawDataReceived { s with buffer := ([] : List Byte) } s.buffer).1) <
                    pMeasure s := by
                  unfold pMeasure
                  rw [if_pos hr, if_neg hl]
                  simp only [List.length_nil] at hlt ⊢
                  omega
                rw [ih n (by omega) m
                  ((rawDataReceived { s with buffer := ([] : List Byte) } s.buffer).1)
                  (by omega) (by omega)]
              · rw [if_neg hr, if_neg hr]

theorem straddleInv_buffer (s : PState) (b : List Byte) :
    StraddleInv { s with buffer := b } ↔ StraddleInv s := Iff.rfl

theorem utf8Encode_take_length_le (l : List Char) (k : Nat) :
    (utf8Encode (l.take k)).length ≤ (utf8Encode l).length := by
  conv_rhs => rw [← List.take_append_drop k l]
  rw [utf8Encode_append]
  simp

theorem termSubstrings_length_le (tid : List Char) (t : List Char)
    (ht : t ∈ termSubstrings tid) :
    (utf8Encode t).length ≤ (terminatorBytes tid).length + 2 := by
  rw [termSubstrings, List.mem_reverse] at ht
  simp only [List.mem_append, List.mem_map, List.mem_range, List.mem_cons,
    List.not_mem_nil, or_false] at ht
  have henc : ∀ ext : List Char, (utf8Encode (terminatorChars tid ++ ext)).length =
      (terminatorBytes tid).length + (utf8Encode ext).length := by
    intro ext
    rw [utf8Encode_append, terminatorBytes]
    simp
  rcases ht with ⟨i, _, rfl⟩ | rfl | rfl | rfl | rfl | rfl | rfl
  · exact le_trans (utf8Encode_take_length_le _ _) (by rw [terminatorBytes]; omega)
  all_goals (rw [henc]; simp [utf8Encode])

theorem straddleInv_lineReceived (s : PState) (l : List Byte)
    (hl : s.lineMode = true) :
    StraddleInv ((lineReceived s l).1) := by
  rw [lineReceived]
  dsimp only
  repeat' split
  all_goals intro hlm
  · exact ⟨_, rfl, by simp⟩
  all_goals (simp only [hl] at hlm; cases hlm)

theorem straddleInv_rawDataReceived (s : PState) (x : List Byte)
    (hl : s.lineMode = false) (hinv : StraddleInv s) :
    StraddleInv ((rawDataReceived s x).1) := by
  obtain ⟨d, hd, hbound⟩ := hinv hl
  rw [rawDataReceived, hd]
  dsimp only
  split
  · split
    · intro _
      exact ⟨d, rfl, hbound⟩
    · intro hlm
      simp at hlm
  · split
    · next t htmem =>
      intro _
      refine ⟨d, rfl, ?_⟩
      have hle := termSubstrings_length_le d.transaction_id t (List.mem_of_find?_eq_some htmem)
      simp only [List.length_drop]
      omega
    · intro _
      exact ⟨d, rfl, by simp⟩

theorem straddleInv_loopF (n : Nat) (s : PState) (hinv : StraddleInv s) :
    StraddleInv ((loopF n s).1) := by
  induction n generalizing s with
  | zero => exact hinv
  | succ n ih =>
    rw [loopF]
    dsimp only
    by_cases hc : s.crashed = true
    · rw [if_pos hc]; exact hinv
    · rw [if_neg hc]
      by_cases hb : s.buffer = []
      · rw [if_pos hb]; exact hinv
      · rw [if_neg hb]
        by_cases hl : s.lineMode = true
        · rw [if_pos hl]
          cases hsp : splitFirst delim s.buffer with
          | none =>
            simp only
            split
            · intro hlm; simp at hlm; exact absurd hl (by simp [hlm])
            · exact hinv
          | some lr =>
            obtain ⟨line, rest⟩ := lr
            simp only
            by_cases hlen : 16384 < line.length
            · rw [if_pos hlen]
              intro hlm; simp at hlm; exact absurd hl (by simp [hlm])
            · rw [if_neg hlen]
              exact ih _ (straddleInv_lineReceived { s with buffer := rest } line
                (by simpa using hl))
        · rw [if_neg hl]
          have hone := straddleInv_rawDataReceived { s with buffer := [] } s.buffer
            (by simpa using hl) ((straddleInv_buffer s []).mpr hinv)
          by_cases hr : ((rawDataReceived { s with buffer := ([] : List Byte) } s.buffer).1).lineMode = true
          · rw [if_pos hr]
            exact ih _ hone
          · rw [if_neg hr]
            exact hone

theorem straddleInv_feedAll (segs : List (List Byte)) (s : PState)
    (hinv : StraddleInv s) : StraddleInv ((feedAll s segs).1) := by
  induction segs generalizing s with
  | nil => exact hinv
  | cons x xs ih =>
    exact ih _ (straddleInv_loopF _ _ ((straddleInv_buffer s (s.buffer ++ x)).mpr hinv))

/-- C1: the claim asserts that the sink event sequence is independent of
the partitioning of the byte stream.  The code violates this: when a raw
mode delivery ends exactly at the terminator, `rawDataReceived` takes the
found branch before the continuation flag has arrived, emits *chunk end*
with an empty flag, and the flag bytes arriving next are reported as
*illegal data* from line mode.  Delivered in one call, the same stream
ends the chunk with flag `$`. -/
theorem C1_straddle_equivalence_fails :
    runEvents [bs "MSRP abcd SEND\r\n\r\nX\r\n-------abcd$\r\n"] =
      [Ev.dataStart msgAbcd, Ev.dataWrite (bs "X") true, Ev.dataEnd (bs "$")] ∧
    runEvents [bs "MSRP abcd SEND\r\n\r\nX\r\n-------abcd", bs "$\r\n"] =
      [Ev.dataStart msgAbcd, Ev.dataWrite (bs "X") true, Ev.dataEnd [],
        Ev.illegal (bs "$\r\n")] := by
  decide

/-- C2: the claim asserts every *chunk end* flag is one of `$`, `#`, `+`.
The code violates it: a raw-mode delivery ending exactly at the terminator
produces `_data_end(b'')` — an empty flag. -/
theorem C2_flag_not_always_legal :
    Ev.dataEnd [] ∈ runEvents [bs "MSRP efgh SEND\r\n\r\n", bs "Y\r\n-------efgh"] ∧
    ([] : List Byte) ∉ [bs "$", bs "#", bs "+"] := by
  decide

/-- C5 counterexample: in IDLE the framer does not ignore an empty line —
`lineReceived` reports it as illegal data (the line plus CRLF), because
the falsy-string guard skips the first-line match and the `else` branch
reports.  The claim says no event is emitted. -/
theorem C5_counterexample :
    runEvents [bs "\r\n"] = [Ev.illegal (bs "\r\n")] := by
  decide

/-- C5 (amended): in IDLE every received line that does not match the
first-line grammar — including the empty line and undecodable bytes — is
reported as *illegal data* carrying the line plus CRLF, with the state
unchanged; a line matching the grammar starts a message and emits
nothing. -/
theorem C5_idle_line_handling (s : PState) (line : List Byte)
    (hidle : s.data = none) :
    (∀ fl : FirstLine,
      (utf8Decode line).bind (fun dl => if dl ≠ [] then firstLineParse dl else none) = some fl →
        lineReceived s line =
          ({ s with data := some ⟨fl.tid, fl.method, fl.code, fl.comment, [],
              line ++ delim, none⟩ }, [])) ∧
    ((utf8Decode line).bind (fun dl => if dl ≠ [] then firstLineParse dl else none) = none →
      lineReceived s line = (s, [Ev.illegal (line ++ delim)])) := by
  constructor
  · intro fl hfl
    rw [lineReceived, hidle]
    dsimp only
    rw [hfl]
  · intro hfl
    rw [lineReceived, hidle]
    dsimp only
    rw [hfl]

/-- Closed witness for `C5_idle_line_handling`: the empty line is reported
as illegal data, and a valid first line starts a message silently. -/
theorem C5_idle_line_handling_witness :
    lineReceived initialState (bs "") = (initialState, [Ev.illegal (bs "" ++ delim)]) ∧
    lineReceived initialState (bs "MSRP abcd SEND") =
      ({ initialState with data := some ⟨cs "abcd", some (cs "SEND"), none, none, [],
          bs "MSRP abcd SEND" ++ delim, none⟩ }, []) := by
  refine ⟨(C5_idle_line_handling initialState (bs "") rfl).2 (by decide), ?_⟩
  exact (C5_idle_line_handling initialState (bs "MSRP abcd SEND") rfl).1
    ⟨cs "abcd", some (cs "SEND"), none, none⟩ (by decide)

/-- C4 counterexample: a chunk whose body was fully delivered before the
raw-mode call containing the terminator receives no `final = true` body
write at all: the terminator is found at position 0, `contents` is empty,
and the `if contents:` guard skips the final write.  This refutes the
claim's clause that every chunk with a body gets a final body write. -/
theorem C4_counterexample :
    runEvents [bs "MSRP wxyz SEND\r\n\r\n", bs "AB", bs "\r\n-------wxyz$\r\n"] =
      [Ev.dataStart ⟨cs "wxyz", some (cs "SEND"), none, none, [],
        bs "MSRP wxyz SEND\r\n\r\n", none⟩,
       Ev.dataWrite (bs "AB") false, Ev.dataEnd (bs "$")] ∧
    (runEvents [bs "MSRP wxyz SEND\r\n\r\n", bs "AB", bs "\r\n-------wxyz$\r\n"]).all
      (fun e => match e with | Ev.dataWrite _ true => false | _ => true) = true := by
  decide

/-- C3: at every reachable state, if the framer is in raw mode then a
message is under construction and the retained straddle buffer `term_buf`
holds at most `len(terminator) + 2` bytes, where the terminator is
`CRLF + '-------' + transaction_id` of the current chunk. -/
theorem C3_straddle_buffer_bounded (segs : List (List Byte)) (d : MsgData)
    (hraw : (runState segs).lineMode = false)
    (hdata : (runState segs).data = some d) :
    (runState segs).term_buf.length ≤ (terminatorBytes d.transaction_id).length + 2 := by
  have hinv : StraddleInv (runState segs) :=
    straddleInv_feedAll segs initialState (by intro h; cases h)
  obtain ⟨d', hd', hb⟩ := hinv hraw
  rw [hdata] at hd'
  injection hd' with h
  rw [h]
  exact hb

/-- Closed witness for `C3_straddle_buffer_bounded`: after the run the
framer is in raw mode retaining the 11-byte prefix `\r\n-------ab` of the
13-byte terminator. -/
theorem C3_straddle_buffer_bounded_witness :
    (runState segsC3).term_buf.length ≤ (terminatorBytes msgAbcd.transaction_id).length + 2 :=
  C3_straddle_buffer_bounded segsC3 msgAbcd (by decide) (by decide)

/-- C4 (amended): when raw mode finds the terminator at position `p` of
the straddle-prefixed buffer with the flag byte and CRLF following in the
same buffer, the bytes `[0, p)` are emitted as a body write with
`final = true` — only when `p > 0`; for `p = 0` no body write is emitted —
then *chunk end* fires with the flag that follows the terminator, and the
framer returns to line mode with the bytes after the end-line CRLF fed
back to the line parser.  A chunk with a body therefore gets a final body
write exactly when the raw-mode call containing the terminator still
carries body bytes. -/
theorem C4_terminator_found (s : PState) (d : MsgData)
    (x B rest : List Byte) (f : Byte)
    (hd : s.data = some d)
    (hsplit : s.term_buf ++ x = B ++ terminatorBytes d.transaction_id ++ f :: 13 :: 10 :: rest)
    (hfind : listFind (terminatorBytes d.transaction_id) (s.term_buf ++ x) = some B.length)
    (hflag : f ∈ [36, 35, 43]) :
    rawDataReceived s x =
      ({ s with lineMode := true, data := none, line_count := 0, buffer := s.buffer ++ rest },
       (if B ≠ [] then [Ev.dataWrite B true] else []) ++ [Ev.dataEnd [f]]) := by
  have hc : (s.term_buf ++ x).take B.length = B := by
    rw [hsplit, List.append_assoc]
    exact List.take_left' rfl
  have hlf : (s.term_buf ++ x).drop (B.length + (terminatorBytes d.transaction_id).length) =
      f :: 13 :: 10 :: rest := by
    rw [hsplit]
    exact List.drop_left' (by simp)
  have hpre1 : ¬ (delim.isPrefixOf (f :: 13 :: 10 :: rest) = true) := by
    intro h
    simp only [delim, List.isPrefixOf, Bool.and_eq_true, beq_iff_eq] at h
    exact absurd h.2.1 (by decide)
  have hpre2 : delim.isPrefixOf (13 :: 10 :: rest) = true := by
    simp only [delim, List.isPrefixOf, Bool.and_eq_true, beq_iff_eq]
    exact ⟨trivial, trivial, trivial⟩
  have hfd : listFind delim (f :: 13 :: 10 :: rest) = some 1 := by
    rw [listFind, if_neg hpre1]
    rw [listFind, if_pos hpre2]
    rfl
  simp only [List.mem_cons, List.not_mem_nil, or_false] at hflag
  have hdec : utf8Decode [f] = some [Char.ofNat f] := by
    rcases hflag with rfl | rfl | rfl <;> rfl
  rw [rawDataReceived, hd]
  dsimp only
  rw [hfind]
  dsimp only
  rw [hc, hlf, hfd]
  dsimp only
  have ht1 : List.take 1 (f :: 13 :: 10 :: rest) = [f] := rfl
  have ht3 : List.drop (2 * 1 + 1) (f :: 13 :: 10 :: rest) = rest := rfl
  rw [ht1, ht3, hdec]

/-- Closed witness for `C4_terminator_found`: a raw-mode state holding
a chunk with transaction id `abcd` receives `AB` followed by the complete
end-line; the body is written with `final = true` and the chunk ends with
flag `$`. -/
theorem C4_terminator_found_witness :
    rawDataReceived
      { lineMode := false, buffer := [], term_buf := [], data := some msgAbcd,
        line_count := 0, crashed := false }
      (bs "AB\r\n-------abcd$\r\nNEXT") =
    ({ lineMode := true, buffer := bs "NEXT", term_buf := [], data := none,
        line_count := 0, crashed := false },
      [Ev.dataWrite (bs "AB") true, Ev.dataEnd [36]]) := by
  have h := C4_terminator_found
    { lineMode := false, buffer := [], term_buf := [], data := some msgAbcd,
      line_count := 0, crashed := false }
    msgAbcd (bs "AB\r\n-------abcd$\r\nNEXT") (bs "AB") (bs "NEXT") 36
    rfl (by decide) (by decide) (by decide)
  rw [h]
  decide

theorem reWeightList_append (a b : List RElem) :
    reWeightList (a ++ b) = reWeightList a + reWeightList b := by
  induction a with
  | nil => simp [reWeightList]
  | cons e t ih => simp [reWeightList, ih]; omega

theorem reFuel_pos (ps : List RElem) (s : List Char) : 1 ≤ reFuel ps s := by
  unfold reFuel
  exact Nat.one_le_iff_ne_zero.mpr (Nat.mul_ne_zero (by omega) (by omega))

theorem reFuel_step_lt {ps' ps : List RElem} {s' s : List Char}
    (hps : reWeightList ps' + 1 ≤ reWeightList ps) (hs : s'.length ≤ s.length) :
    reFuel ps' s' < reFuel ps s := by
  unfold reFuel
  calc (s'.length + 1) * (reWeightList ps' + 1)
      ≤ (s.length + 1) * reWeightList ps :=
        Nat.mul_le_mul (by omega) hps
    _ < (s.length + 1) * (reWeightList ps + 1) := by
        have : 1 ≤ s.length + 1 := by omega
        calc (s.length + 1) * reWeightList ps
            < (s.length + 1) * reWeightList ps + (s.length + 1) := by omega
          _ = (s.length + 1) * (reWeightList ps + 1) := by ring

theorem reFuel_input_lt {ps' ps : List RElem} {s' s : List Char}
    (hps : reWeightList ps' ≤ reWeightList ps) (hs : s'.length < s.length) :
    reFuel ps' s' < reFuel ps s := by
  unfold reFuel
  calc (s'.length + 1) * (reWeightList ps' + 1)
      ≤ s.length * (reWeightList ps + 1) := Nat.mul_le_mul (by omega) (by omega)
    _ < (s.length + 1) * (reWeightList ps + 1) := by
        have h1 : 1 ≤ reWeightList ps + 1 := by omega
        calc s.length * (reWeightList ps + 1)
            < s.length * (reWeightList ps + 1) + (reWeightList ps + 1) := by omega
          _ = (s.length + 1) * (reWeightList ps + 1) := by ring

theorem dropWhile_length_le {α} (p : α → Bool) (l : List α) :
    (l.dropWhile p).length ≤ l.length := by
  induction l with
  | nil => simp [List.dropWhile]
  | cons a t ih =>
    rw [List.dropWhile]
    split
    · exact le_trans ih (by simp)
    · simp

theorem reMatchF_congr :
    ∀ (n m : Nat) (ps : List RElem) (s : List Char) (o : Opens) (caps : Caps),
      reFuel ps s ≤ n → reFuel ps s ≤ m →
      reMatchF n ps s o caps = reMatchF m ps s o caps := by
  intro n
  induction n using Nat.strong_induction_on with
  | _ n ih =>
    intro m ps s o caps hn hm
    have hpos := reFuel_pos ps s
    cases n with
    | zero => omega
    | succ n =>
      cases m with
      | zero => omega
      | succ m =>
        cases ps with
        | nil => rw [reMatchF, reMatchF]
        | cons e tail =>
          cases e with
          | lit l =>
            rw [reMatchF, reMatchF]
            have hlt : reFuel tail (s.drop l.length) < reFuel (.lit l :: tail) s :=
              reFuel_step_lt (by simp [reWeightList, reWeight] <;> omega) (by simp)
            by_cases hp : l.isPrefixOf s = true
            · rw [if_pos hp, if_pos hp]
              exact ih n (by omega) m tail _ o caps (by omega) (by omega)
            · rw [if_neg hp, if_neg hp]
          | one p =>
            cases s with
            | nil => rw [reMatchF, reMatchF]
            | cons c t =>
              rw [reMatchF, reMatchF]
              have hlt : reFuel tail t < reFuel (.one p :: tail) (c :: t) :=
                reFuel_input_lt (by simp [reWeightList, reWeight] <;> omega) (by simp)
              by_cases hp : p c = true
              · rw [if_pos hp, if_pos hp]
                exact ih n (by omega) m tail t o caps (by omega) (by omega)
              · rw [if_neg hp, if_neg hp]
          | lazyStar p =>
            have hlt : reFuel tail s < reFuel (.lazyStar p :: tail) s :=
              reFuel_step_lt (by simp [reWeightList, reWeight] <;> omega) (by simp)
            cases s with
            | nil =>
              rw [reMatchF, reMatchF]
              rw [ih n (by omega) m tail [] o caps (by omega) (by omega)]
            | cons c t =>
              rw [reMatchF, reMatchF]
              rw [ih n (by omega) m tail (c :: t) o caps (by omega) (by omega)]
              cases hres : reMatchF m tail (c :: t) o caps with
              | some r => rfl
              | none =>
                have hlt2 : reFuel (.lazyStar p :: tail) t <
                    reFuel (.lazyStar p :: tail) (c :: t) :=
                  reFuel_input_lt (by omega) (by simp)
                by_cases hp : p c = true
                · simp only [if_pos hp]
                  exact ih n (by omega) m (.lazyStar p :: tail) t o caps (by omega) (by omega)
                · simp only [if_neg hp]
          | opt sub =>
            rw [reMatchF, reMatchF]
            have hlt : reFuel (sub ++ tail) s < reFuel (.opt sub :: tail) s :=
              reFuel_step_lt
                (by simp [reWeightList, reWeight, reWeightList_append] <;> omega) (by simp)
            have hlt2 : reFuel tail s < reFuel (.opt sub :: tail) s :=
              reFuel_step_lt (by simp [reWeightList, reWeight] <;> omega) (by simp)
            rw [ih n (by omega) m (sub ++ tail) s o caps (by omega) (by omega)]
            cases hres : reMatchF m (sub ++ tail) s o caps with
            | some r => rfl
            | none =>
              exact ih n (by omega) m tail s o caps (by omega) (by omega)
          | startCap i =>
            rw [reMatchF, reMatchF]
            have hlt : reFuel tail s < reFuel (.startCap i :: tail) s :=
              reFuel_step_lt (by simp [reWeightList, reWeight] <;> omega) (by simp)
            exact ih n (by omega) m tail s _ caps (by omega) (by omega)
          | endCap i =>
            rw [reMatchF, reMatchF]
            have hlt : reFuel tail s < reFuel (.endCap i :: tail) s :=
              reFuel_step_lt (by simp [reWeightList, reWeight] <;> omega) (by simp)
            cases hf : o.find? (fun pr => pr.1 = i) with
            | some pr =>
              simp only [hf]
              exact ih n (by omega) m tail s o _ (by omega) (by omega)
            | none =>
              simp only [hf]
              exact ih n (by omega) m tail s o caps (by omega) (by omega)
          | maxRun i =>
            rw [reMatchF, reMatchF]
            have hlt : reFuel tail (s.dropWhile (fun c => c ≠ '\n')) <
                reFuel (.maxRun i :: tail) s :=
              reFuel_step_lt (by simp [reWeightList, reWeight] <;> omega)
                (dropWhile_length_le _ _)
            exact ih n (by omega) m tail _ o _ (by omega) (by omega)
          | endAnchor =>
            rw [reMatchF, reMatchF]
            have hlt : reFuel tail s < reFuel (.endAnchor :: tail) s :=
              reFuel_step_lt (by simp [reWeightList, reWeight] <;> omega) (by simp)
            by_cases hp : s = [] ∨ s = ['\n']
            · rw [if_pos hp, if_pos hp]
              exact ih n (by omega) m tail s o caps (by omega) (by omega)
            · rw [if_neg hp, if_neg hp]

theorem reMatch_nil (s : List Char) (o : Opens) (caps : Caps) :
    reMatch [] s o caps = some caps := by
  unfold reMatch
  obtain ⟨k, hk⟩ : ∃ k, reFuel [] s = k + 1 :=
    ⟨reFuel [] s - 1, by have := reFuel_pos [] s; omega⟩
  rw [hk, reMatchF]

theorem reMatch_lit (l : List Char) (ps : List RElem) (s : List Char) (o : Opens) (caps : Caps) :
    reMatch (.lit l :: ps) s o caps =
      if l.isPrefixOf s then reMatch ps (s.drop l.length) o caps else none := by
  unfold reMatch
  obtain ⟨k, hk⟩ : ∃ k, reFuel (.lit l :: ps) s = k + 1 :=
    ⟨reFuel (.lit l :: ps) s - 1, by have := reFuel_pos (.lit l :: ps) s; omega⟩
  have hlt : reFuel ps (s.drop l.length) < reFuel (.lit l :: ps) s :=
    reFuel_step_lt (by simp [reWeightList, reWeight] <;> omega) (by simp)
  rw [hk, reMatchF]
  by_cases hp : l.isPrefixOf s = true
  · rw [if_pos hp, if_pos hp]
    exact reMatchF_congr k _ ps _ o caps (by omega) (le_refl _)
  · rw [if_neg hp, if_neg hp]

theorem reMatch_one (p : Char → Bool) (ps : List RElem) (s : List Char) (o : Opens)
    (caps : Caps) :
    reMatch (.one p :: ps) s o caps =
      match s with
      | [] => none
      | c :: t => if p c then reMatch ps t o caps else none := by
  unfold reMatch
  cases s with
  | nil =>
    obtain ⟨k, hk⟩ : ∃ k, reFuel (.one p :: ps) [] = k + 1 :=
      ⟨reFuel (.one p :: ps) [] - 1, by have := reFuel_pos (.one p :: ps) []; omega⟩
    rw [hk, reMatchF]
  | cons c t =>
    obtain ⟨k, hk⟩ : ∃ k, reFuel (.one p :: ps) (c :: t) = k + 1 :=
      ⟨reFuel (.one p :: ps) (c :: t) - 1, by
        have := reFuel_pos (.one p :: ps) (c :: t); omega⟩
    have hlt : reFuel ps t < reFuel (.one p :: ps) (c :: t) :=
      reFuel_input_lt (by simp [reWeightList, reWeight] <;> omega) (by simp)
    rw [hk, reMatchF]
    dsimp only
    by_cases hp : p c = true
    · rw [if_pos hp, if_pos hp]
      exact reMatchF_congr k _ ps t o caps (by omega) (le_refl _)
    · rw [if_neg hp, if_neg hp]

theorem reMatch_lazyStar (p : Char → Bool) (ps : List RElem) (s : List Char) (o : Opens)
    (caps : Caps) :
    reMatch (.lazyStar p :: ps) s o caps =
      match reMatch ps s o caps with
      | some r => some r
      | none =>
        match s with
        | [] => none
        | c :: t => if p c then reMatch (.lazyStar p :: ps) t o caps else none := by
  unfold reMatch
  have hlt : reFuel ps s < reFuel (.lazyStar p :: ps) s :=
    reFuel_step_lt (by simp [reWeightList, reWeight] <;> omega) (by simp)
  cases s with
  | nil =>
    obtain ⟨k, hk⟩ : ∃ k, reFuel (.lazyStar p :: ps) [] = k + 1 :=
      ⟨reFuel (.lazyStar p :: ps) [] - 1, by
        have := reFuel_pos (.lazyStar p :: ps) []; omega⟩
    rw [hk, reMatchF]
    rw [reMatchF_congr k _ ps [] o caps (by omega) (le_refl _)]
  | cons c t =>
    obtain ⟨k, hk⟩ : ∃ k, reFuel (.lazyStar p :: ps) (c :: t) = k + 1 :=
      ⟨reFuel (.lazyStar p :: ps) (c :: t) - 1, by
        have := reFuel_pos (.lazyStar p :: ps) (c :: t); omega⟩
    have hlt2 : reFuel (.lazyStar p :: ps) t < reFuel (.lazyStar p :: ps) (c :: t) :=
      reFuel_input_lt (by omega) (by simp)
    rw [hk, reMatchF]
    rw [reMatchF_congr k _ ps (c :: t) o caps (by omega) (le_refl _)]
    cases hres : reMatchF (reFuel ps (c :: t)) ps (c :: t) o caps with
    | some r => rfl
    | none =>
      by_cases hp : p c = true
      · simp only [if_pos hp]
        exact reMatchF_congr k _ (.lazyStar p :: ps) t o caps (by omega) (le_refl _)
      · simp only [if_neg hp]

theorem reMatch_opt (sub ps : List RElem) (s : List Char) (o : Opens) (caps : Caps) :
    reMatch (.opt sub :: ps) s o caps =
      match reMatch (sub ++ ps) s o caps with
      | some r => some r
      | none => reMatch ps s o caps := by
  unfold reMatch
  obtain ⟨k, hk⟩ : ∃ k, reFuel (.opt sub :: ps) s = k + 1 :=
    ⟨reFuel (.opt sub :: ps) s - 1, by have := reFuel_pos (.opt sub :: ps) s; omega⟩
  have hlt : reFuel (sub ++ ps) s < reFuel (.opt sub :: ps) s :=
    reFuel_step_lt (by simp [reWeightList, reWeight, reWeightList_append]; omega) (by simp)
  have hlt2 : reFuel ps s < reFuel (.opt sub :: ps) s :=
    reFuel_step_lt (by simp [reWeightList, reWeight]; omega) (by simp)
  rw [hk, reMatchF]
  rw [reMatchF_congr k _ (sub ++ ps) s o caps (by omega) (le_refl _)]
  cases hres : reMatchF (reFuel (sub ++ ps) s) (sub ++ ps) s o caps with
  | some r => rfl
  | none => exact reMatchF_congr k _ ps s o caps (by omega) (le_refl _)

theorem reMatch_startCap (i : Nat) (ps : List RElem) (s : List Char) (o : Opens) (caps : Caps) :
    reMatch (.startCap i :: ps) s o caps = reMatch ps s ((i, s) :: o) caps := by
  unfold reMatch
  obtain ⟨k, hk⟩ : ∃ k, reFuel (.startCap i :: ps) s = k + 1 :=
    ⟨reFuel (.startCap i :: ps) s - 1, by have := reFuel_pos (.startCap i :: ps) s; omega⟩
  have hlt : reFuel ps s < reFuel (.startCap i :: ps) s :=
    reFuel_step_lt (by simp [reWeightList, reWeight] <;> omega) (by simp)
  rw [hk, reMatchF]
  exact reMatchF_congr k _ ps s _ caps (by omega) (le_refl _)

theorem reMatch_endCap (i : Nat) (ps : List RElem) (s : List Char) (o : Opens) (caps : Caps) :
    reMatch (.endCap i :: ps) s o caps =
      match o.find? (fun pr => pr.1 = i) with
      | some pr => reMatch ps s o (caps.set i (some (pr.2.take (pr.2.length - s.length))))
      | none => reMatch ps s o caps := by
  unfold reMatch
  obtain ⟨k, hk⟩ : ∃ k, reFuel (.endCap i :: ps) s = k + 1 :=
    ⟨reFuel (.endCap i :: ps) s - 1, by have := reFuel_pos (.endCap i :: ps) s; omega⟩
  have hlt : reFuel ps s < reFuel (.endCap i :: ps) s :=
    reFuel_step_lt (by simp [reWeightList, reWeight] <;> omega) (by simp)
  rw [hk, reMatchF]
  cases hf : o.find? (fun pr => pr.1 = i) with
  | some pr =>
    simp only [hf]
    exact reMatchF_congr k _ ps s o _ (by omega) (le_refl _)
  | none =>
    simp only [hf]
    exact reMatchF_congr k _ ps s o caps (by omega) (le_refl _)

theorem reMatch_maxRun (i : Nat) (ps : List RElem) (s : List Char) (o : Opens) (caps : Caps) :
    reMatch (.maxRun i :: ps) s o caps =
      reMatch ps (s.dropWhile (fun c => c ≠ '\n')) o
        (caps.set i (some (s.takeWhile (fun c => c ≠ '\n')))) := by
  unfold reMatch
  obtain ⟨k, hk⟩ : ∃ k, reFuel (.maxRun i :: ps) s = k + 1 :=
    ⟨reFuel (.maxRun i :: ps) s - 1, by have := reFuel_pos (.maxRun i :: ps) s; omega⟩
  have hlt : reFuel ps (s.dropWhile (fun c => c ≠ '\n')) < reFuel (.maxRun i :: ps) s :=
    reFuel_step_lt (by simp [reWeightList, reWeight] <;> omega) (dropWhile_length_le _ _)
  rw [hk, reMatchF]
  exact reMatchF_congr k _ ps _ o _ (by omega) (le_refl _)

theorem reMatch_endAnchor (ps : List RElem) (s : List Char) (o : Opens) (caps : Caps) :
    reMatch (.endAnchor :: ps) s o caps =
      if s = [] ∨ s = ['\n'] then reMatch ps s o caps else none := by
  unfold reMatch
  obtain ⟨k, hk⟩ : ∃ k, reFuel (.endAnchor :: ps) s = k + 1 :=
    ⟨reFuel (.endAnchor :: ps) s - 1, by have := reFuel_pos (.endAnchor :: ps) s; omega⟩
  have hlt : reFuel ps s < reFuel (.endAnchor :: ps) s :=
    reFuel_step_lt (by simp [reWeightList, reWeight] <;> omega) (by simp)
  rw [hk, reMatchF]
  by_cases hp : s = [] ∨ s = ['\n']
  · rw [if_pos hp, if_pos hp]
    exact reMatchF_congr k _ ps s o caps (by omega) (le_refl _)
  · rw [if_neg hp, if_neg hp]

/-! ### Scan lemmas for symbolic matching -/

theorem endCapLit_fail (i : Nat) (l : List Char) (K : List RElem) (u : List Char)
    (o : Opens) (c : Caps) (h : l.isPrefixOf u = false) :
    reMatch (.endCap i :: .lit l :: K) u o c = none := by
  rw [reMatch_endCap]
  cases o.find? (fun pr => pr.1 = i) with
  | some pr => simp only; rw [reMatch_lit, if_neg (by simp [h])]
  | none => simp only; rw [reMatch_lit, if_neg (by simp [h])]

theorem lazyStar_step (p : Char → Bool) (K : List RElem) (a : Char) (u : List Char)
    (o : Opens) (c : Caps) (hfail : reMatch K (a :: u) o c = none) (ha : p a = true) :
    reMatch (.lazyStar p :: K) (a :: u) o c = reMatch (.lazyStar p :: K) u o c := by
  rw [reMatch_lazyStar, hfail]
  simp only [if_pos ha]

theorem lazyStar_skip (p q : Char → Bool) (K : List RElem) (o : Opens) (c : Caps)
    (hfailhead : ∀ a u, q a = true → reMatch K (a :: u) o c = none) :
    ∀ s₁ s₂, (∀ a ∈ s₁, p a = true ∧ q a = true) →
      reMatch (.lazyStar p :: K) (s₁ ++ s₂) o c = reMatch (.lazyStar p :: K) s₂ o c := by
  intro s₁
  induction s₁ with
  | nil => intro s₂ _; rfl
  | cons a t ih =>
    intro s₂ hall
    have ha := hall a (by simp)
    rw [List.cons_append, lazyStar_step p K a (t ++ s₂) o c (hfailhead a _ ha.2) ha.1]
    exact ih s₂ (fun b hb => hall b (by simp [hb]))

theorem lazyStar_fail (p q : Char → Bool) (K : List RElem) (o : Opens) (c : Caps)
    (hfailhead : ∀ a u, q a = true → reMatch K (a :: u) o c = none)
    (hnil : reMatch K [] o c = none) :
    ∀ s, (∀ a ∈ s, p a = true ∧ q a = true) →
      reMatch (.lazyStar p :: K) s o c = none := by
  intro s
  induction s with
  | nil =>
    intro _
    rw [reMatch_lazyStar, hnil]
  | cons a t ih =>
    intro hall
    have ha := hall a (by simp)
    rw [lazyStar_step p K a t o c (hfailhead a _ ha.2) ha.1]
    exact ih (fun b hb => hall b (by simp [hb]))

theorem take_prefix_cap {α} (pre u : List α) :
    (pre ++ u).take ((pre ++ u).length - u.length) = pre := by
  rw [show (pre ++ u).length - u.length = pre.length by simp]
  exact List.take_left' rfl

/-! ### Continuation failure lemmas for the URI pattern -/

theorem onechar_prefix_false {ch a : Char} (u : List Char) (h : a ≠ ch) :
    ([ch].isPrefixOf (a :: u)) = false := by
  simp [List.isPrefixOf]
  exact fun hc => absurd hc.symm h

theorem uriSchemeCont_fail (K : List RElem) (a : Char) (u : List Char)
    (o : Opens) (c : Caps) (h : a ≠ ':') :
    reMatch (.endCap 0 :: .lit (cs "://") :: K) (a :: u) o c = none := by
  apply endCapLit_fail
  simp [cs, List.isPrefixOf]
  exact fun hc => absurd hc.symm h

theorem uriSessSemi_fail (a : Char) (u : List Char)
    (h2 : a ≠ '/') (h3 : a ≠ ';') (o : Opens) (c : Caps) :
    reMatch (uriOptSess :: .lit (cs ";") :: uriTrans) (a :: u) o c = none := by
  rw [uriOptSess, reMatch_opt]
  simp only [List.cons_append, List.nil_append]
  rw [reMatch_lit, if_neg (by rw [show cs "/" = ['/'] from rfl,
    onechar_prefix_false u h2]; simp)]
  simp only
  rw [reMatch_lit, if_neg (by rw [show cs ";" = [';'] from rfl,
    onechar_prefix_false u h3]; simp)]

theorem uriPortSessScan_fail (a : Char) (u : List Char)
    (h1 : a ≠ ':') (h2 : a ≠ '/') (h3 : a ≠ ';') (o : Opens) (c : Caps) :
    reMatch (uriOptPort :: uriOptSess :: .lit (cs ";") :: uriTrans) (a :: u) o c = none := by
  rw [uriOptPort, reMatch_opt]
  simp only [List.cons_append, List.nil_append]
  rw [reMatch_lit, if_neg (by rw [show cs ":" = [':'] from rfl,
    onechar_prefix_false u h1]; simp)]
  simp only
  exact uriSessSemi_fail a u h2 h3 o c

theorem uriHostCont_fail (a : Char) (u : List Char)
    (h1 : a ≠ ':') (h2 : a ≠ '/') (h3 : a ≠ ';') (o : Opens) (c : Caps) :
    reMatch (.endCap 2 :: uriOptPort :: uriOptSess :: .lit (cs ";") :: uriTrans)
      (a :: u) o c = none := by
  rw [reMatch_endCap]
  cases o.find? (fun pr => pr.1 = 2) with
  | some pr => simp only; exact uriPortSessScan_fail a u h1 h2 h3 o _
  | none => simp only; exact uriPortSessScan_fail a u h1 h2 h3 o c

theorem uriPortSessScan_fail_colon (u : List Char)
    (hu : ∀ b, u.head? = some b → digitClass b = false) (o : Opens) (c : Caps) :
    reMatch (uriOptPort :: uriOptSess :: .lit (cs ";") :: uriTrans) (':' :: u) o c = none := by
  rw [uriOptPort, reMatch_opt]
  simp only [List.cons_append, List.nil_append]
  rw [reMatch_lit, if_pos (by rw [show cs ":" = [':'] from rfl]; simp [List.isPrefixOf])]
  rw [show (':' :: u).drop (cs ":").length = u from rfl]
  rw [reMatch_startCap, reMatch_one]
  cases u with
  | nil =>
    simp only
    exact uriSessSemi_fail ':' [] (by decide) (by decide) o c
  | cons b t =>
    dsimp only
    rw [if_neg (by rw [hu b rfl]; simp)]
    simp only
    exact uriSessSemi_fail ':' (b :: t) (by decide) (by decide) o c

theorem uriHostCont_fail_colon (u : List Char)
    (hu : ∀ b, u.head? = some b → digitClass b = false) (o : Opens) (c : Caps) :
    reMatch (.endCap 2 :: uriOptPort :: uriOptSess :: .lit (cs ";") :: uriTrans)
      (':' :: u) o c = none := by
  rw [reMatch_endCap]
  cases o.find? (fun pr => pr.1 = 2) with
  | some pr => simp only; exact uriPortSessScan_fail_colon u hu o _
  | none => simp only; exact uriPortSessScan_fail_colon u hu o c

theorem uriTransCont_fail (a : Char) (u : List Char)
    (h1 : a ≠ ';') (h2 : a ≠ '\n') (o : Opens) (c : Caps) :
    reMatch (.endCap 5 :: uriOptParams :: .endAnchor :: []) (a :: u) o c = none := by
  have hrest : ∀ c2 : Caps,
      reMatch (uriOptParams :: .endAnchor :: []) (a :: u) o c2 = none := by
    intro c2
    rw [uriOptParams, reMatch_opt]
    simp only [List.cons_append, List.nil_append]
    rw [reMatch_lit, if_neg (by rw [show cs ";" = [';'] from rfl,
      onechar_prefix_false u h1]; simp)]
    simp only
    rw [reMatch_endAnchor, if_neg]
    intro hor
    rcases hor with hor | hor
    · cases hor
    · injection hor with ha _
      exact h2 ha
  rw [reMatch_endCap]
  cases o.find? (fun pr => pr.1 = 5) with
  | some pr => simp only; exact hrest _
  | none => simp only; exact hrest c

theorem lcLetter_ne {c : Char} (h : lcLetter c = true) {d : Char}
    (hd : lcLetter d = false) : c ≠ d := by
  intro he
  rw [he] at h
  rw [h] at hd
  cases hd

theorem lcLetter_not_digit {c : Char} (h : lcLetter c = true) : digitClass c = false := by
  unfold lcLetter at h
  unfold digitClass
  simp at h ⊢
  intro _
  exact lt_of_lt_of_le (by decide : '9' < 'a') h.1

theorem isPrefixOf_append_self {α} [DecidableEq α] (l r : List α) :
    (l.isPrefixOf (l ++ r)) = true := by
  rw [List.isPrefixOf_iff_prefix]
  exact List.prefix_append l r

/-- The match underlying claim C6: for any text `t` of lowercase letters
after the colon, the regex absorbs `:t` into the host group and the port
group does not participate. -/
theorem uriMatch_family (t : List Char) (ht : ∀ a ∈ t, lcLetter a = true) :
    reMatch uriPattern (cs "msrp://host:" ++ (t ++ cs ";tcp")) [] (List.replicate 7 none) =
      some [some (cs "msrp"), none, some (cs "host:" ++ t), none, none,
        some (cs "tcp"), none] := by
  have hu : ∀ b, (t ++ cs ";tcp").head? = some b → digitClass b = false := by
    intro b hb
    cases t with
    | nil =>
      rw [show (([] : List Char) ++ cs ";tcp").head? = some ';' from rfl] at hb
      injection hb with hb
      rw [← hb]
      decide
    | cons t0 tt =>
      rw [show ((t0 :: tt) ++ cs ";tcp").head? = some t0 from rfl] at hb
      injection hb with hb
      rw [← hb]
      exact lcLetter_not_digit (ht t0 (by simp))
  rw [uriPattern]
  simp only [List.cons_append, List.nil_append]
  rw [reMatch_startCap]
  rw [show cs "msrp://host:" ++ (t ++ cs ";tcp") =
        cs "msrp" ++ (cs "://host:" ++ (t ++ cs ";tcp")) from rfl]
  rw [lazyStar_skip anyChar (fun a => decide (a ≠ ':')) _ _ _
    (fun a u hq => uriSchemeCont_fail _ a u _ _ (of_decide_eq_true hq))
    (cs "msrp") _ (by decide)]
  rw [reMatch_lazyStar]
  have hcont : reMatch
      (.endCap 0 :: .lit (cs "://") :: uriOptUser :: .startCap 2 :: .lazyStar anyChar ::
        .endCap 2 :: uriOptPort :: uriOptSess :: .lit (cs ";") :: uriTrans)
      (cs "://host:" ++ (t ++ cs ";tcp"))
      [(0, cs "msrp" ++ (cs "://host:" ++ (t ++ cs ";tcp")))] (List.replicate 7 none) =
      some [some (cs "msrp"), none, some (cs "host:" ++ t), none, none,
        some (cs "tcp"), none] := by
    rw [reMatch_endCap]
    rw [show List.find? (fun pr => pr.1 = 0)
        [(0, cs "msrp" ++ (cs "://host:" ++ (t ++ cs ";tcp")))] =
      some (0, cs "msrp" ++ (cs "://host:" ++ (t ++ cs ";tcp"))) from rfl]
    simp only
    rw [take_prefix_cap]
    rw [show cs "://host:" ++ (t ++ cs ";tcp") =
          cs "://" ++ (cs "host:" ++ (t ++ cs ";tcp")) from rfl]
    rw [reMatch_lit, if_pos (isPrefixOf_append_self _ _), List.drop_left]
    rw [uriOptUser, reMatch_opt]
    simp only [List.cons_append, List.nil_append]
    rw [reMatch_startCap]
    have hallUser : ∀ a ∈ cs "host:" ++ (t ++ cs ";tcp"),
        anyChar a = true ∧ decide (a ≠ '@') = true := by
      intro a ha
      rcases List.mem_append.mp ha with h | h
      · exact (by decide : ∀ a ∈ cs "host:", anyChar a = true ∧ decide (a ≠ '@') = true) a h
      · rcases List.mem_append.mp h with h2 | h2
        · have hl := ht a h2
          constructor
          · simp [anyChar]
            exact lcLetter_ne hl (by decide)
          · simp
            exact lcLetter_ne hl (by decide)
        · exact (by decide : ∀ a ∈ cs ";tcp", anyChar a = true ∧ decide (a ≠ '@') = true) a h2
    rw [lazyStar_fail anyChar (fun a => decide (a ≠ '@')) _ _ _
      (fun a u hq => endCapLit_fail 1 (cs "@") _ (a :: u) _ _
        (by rw [show cs "@" = ['@'] from rfl, onechar_prefix_false u (of_decide_eq_true hq)]))
      (endCapLit_fail 1 (cs "@") _ [] _ _ (by decide))
      _ hallUser]
    simp only
    rw [reMatch_startCap]
    rw [show cs "host:" ++ (t ++ cs ";tcp") = cs "host" ++ (':' :: (t ++ cs ";tcp")) from rfl]
    rw [lazyStar_skip anyChar (fun a => decide (¬(a = ':' ∨ a = '/' ∨ a = ';'))) _ _ _
      (fun a u hq => by
        have h3 := of_decide_eq_true hq
        push_neg at h3
        exact uriHostCont_fail a u h3.1 h3.2.1 h3.2.2 _ _)
      (cs "host") _ (by decide)]
    rw [lazyStar_step anyChar _ ':' _ _ _ (uriHostCont_fail_colon _ hu _ _) (by decide)]
    rw [lazyStar_skip anyChar lcLetter _ _ _
      (fun a u hq => uriHostCont_fail a u (lcLetter_ne hq (by decide))
        (lcLetter_ne hq (by decide)) (lcLetter_ne hq (by decide)) _ _)
      t (cs ";tcp")
      (fun a ha => ⟨by simp [anyChar]; exact lcLetter_ne (ht a ha) (by decide), ht a ha⟩)]
    rw [reMatch_lazyStar]
    have hcont2 : reMatch
        (.endCap 2 :: uriOptPort :: uriOptSess :: .lit (cs ";") :: uriTrans) (cs ";tcp")
        ((2, cs "host" ++ (':' :: (t ++ cs ";tcp"))) ::
          [(0, cs "msrp" ++ (cs "://" ++ (cs "host" ++ (':' :: (t ++ cs ";tcp")))))])
        ((List.replicate 7 none).set 0 (some (cs "msrp"))) =
        some [some (cs "msrp"), none, some (cs "host:" ++ t), none, none,
          some (cs "tcp"), none] := by
      rw [reMatch_endCap]
      rw [show List.find? (fun pr => pr.1 = 2)
          ((2, cs "host" ++ (':' :: (t ++ cs ";tcp"))) ::
            [(0, cs "msrp" ++ (cs "://" ++ (cs "host" ++ (':' :: (t ++ cs ";tcp")))))]) =
        some (2, cs "host" ++ (':' :: (t ++ cs ";tcp"))) from rfl]
      simp only
      have hcap : (cs "host" ++ (':' :: (t ++ cs ";tcp"))).take
          ((cs "host" ++ (':' :: (t ++ cs ";tcp"))).length - (cs ";tcp").length) =
          cs "host:" ++ t := by
        rw [show cs "host" ++ (':' :: (t ++ cs ";tcp")) =
              (cs "host:" ++ t) ++ cs ";tcp" from by
          rw [show cs "host:" = cs "host" ++ [':'] from rfl]
          simp]
        exact take_prefix_cap _ _
      rw [hcap]
      rw [uriOptPort, reMatch_opt]
      simp only [List.cons_append, List.nil_append]
      rw [show cs ";tcp" = ';' :: cs "tcp" from rfl]
      rw [reMatch_lit, if_neg (by rw [show cs ":" = [':'] from rfl,
        onechar_prefix_false (cs "tcp") (by decide)]; simp)]
      simp only
      rw [uriOptSess, reMatch_opt]
      simp only [List.cons_append, List.nil_append]
      rw [reMatch_lit, if_neg (by rw [show cs "/" = ['/'] from rfl,
        onechar_prefix_false (cs "tcp") (by decide)]; simp)]
      simp only
      have hsemi : (cs ";").isPrefixOf (';' :: cs "tcp") = true := by
        rw [show (';' :: cs "tcp") = cs ";" ++ cs "tcp" from rfl]
        exact isPrefixOf_append_self _ _
      rw [reMatch_lit, if_pos hsemi]
      rw [show (';' :: cs "tcp").drop (cs ";").length = cs "tcp" from rfl]
      rfl
    rw [hcont2]
  rw [hcont]

/-- Counterexample to C6: the port text `abc` is non-numeric, yet `URI.parse`
succeeds — the optional port group `(:(?P<port>[0-9]+))?` simply does not
participate and the host group, matched lazily but forced rightward, absorbs
`host:abc` whole. No parse error is raised. -/
theorem C6_counterexample :
    URI.parse (cs "msrp://host:abc;tcp") =
      .ok ⟨false, none, cs "host:abc", none, none, cs "tcp", []⟩ := by
  rfl

/-- C6 (amended): `URI.parse` raises a parse error for an unknown scheme, a
transport other than `tcp`, and a malformed `name=value` parameter pair — but
NOT for a non-numeric port: for every lowercase-letter text `t`, the input
`msrp://host:t;tcp` parses successfully with `host:t` as the host and no port,
because the regex's optional port group requires digits and otherwise the
host group absorbs the colon and the text. -/
theorem C6_parse_errors (t : List Char) (ht : ∀ a ∈ t, lcLetter a = true) :
    URI.parse (cs "msrp://host:" ++ (t ++ cs ";tcp")) =
      .ok ⟨false, none, cs "host:" ++ t, none, none, cs "tcp", []⟩ ∧
    URI.parse (cs "http://host;tcp") = .error (.invalidScheme (cs "http")) ∧
    URI.parse (cs "msrp://host;udp") = .error (.invalidTransport (cs "udp")) ∧
    URI.parse (cs "msrp://host;tcp;x") = .error .cannotParseParameters := by
  refine ⟨?_, by rfl, by rfl, by rfl⟩
  unfold URI.parse
  rw [uriMatch_family t ht]
  rfl

/-- Witness for C6: instantiates the family at `t = "abc"`. -/
theorem C6_parse_errors_witness :
    (∀ a ∈ cs "abc", lcLetter a = true) ∧
    (URI.parse (cs "msrp://host:" ++ (cs "abc" ++ cs ";tcp")) =
        .ok ⟨false, none, cs "host:" ++ cs "abc", none, none, cs "tcp", []⟩ ∧
      URI.parse (cs "http://host;tcp") = .error (.invalidScheme (cs "http")) ∧
      URI.parse (cs "msrp://host;udp") = .error (.invalidTransport (cs "udp")) ∧
      URI.parse (cs "msrp://host;tcp;x") = .error .cannotParseParameters) :=
  ⟨by decide, C6_parse_errors (cs "abc") (by decide)⟩

/-- C7: two URI objects compare equal exactly when their
`(use_tls, lowercased host, port, session_id, lowercased transport)` tuples
agree — `user` and `parameters` play no role — and equal URIs hash equal. -/
theorem C7_uri_eq_hash (u v : URIObj) :
    (uriEq u v = true ↔
      (u.use_tls, pyLower u.host, u.port, u.session_id, pyLower u.transport) =
        (v.use_tls, pyLower v.host, v.port, v.session_id, pyLower v.transport)) ∧
    (uriEq u v = true → uriHash u = uriHash v) := by
  constructor
  · simp [uriEq, URIObj.key]
  · intro h
    exact congrArg uriHashKey (of_decide_eq_true h)

/-- Witness for C7: two URIs differing in user, parameters and letter case of
host/transport compare equal and hash equal. -/
theorem C7_uri_eq_hash_witness :
    uriEq ⟨false, some (cs "alice"), cs "Host", 2855, cs "s1", cs "TCP", [(cs "a", cs "b")]⟩
        ⟨false, none, cs "host", 2855, cs "s1", cs "tcp", []⟩ = true ∧
    uriHash ⟨false, some (cs "alice"), cs "Host", 2855, cs "s1", cs "TCP", [(cs "a", cs "b")]⟩ =
      uriHash ⟨false, none, cs "host", 2855, cs "s1", cs "tcp", []⟩ :=
  ⟨by decide,
    (C7_uri_eq_hash
      ⟨false, some (cs "alice"), cs "Host", 2855, cs "s1", cs "TCP", [(cs "a", cs "b")]⟩
      ⟨false, none, cs "host", 2855, cs "s1", cs "tcp", []⟩).2 (by decide)⟩

theorem digitChar_isDigit {n : Nat} (h : n < 10) : (digitChar n).isDigit = true := by
  interval_cases n <;> decide

theorem digitChar_toNat {n : Nat} (h : n < 10) : (digitChar n).toNat = 48 + n := by
  interval_cases n <;> decide

theorem natToDigitsAux_ne_nil (fuel n : Nat) (acc : List Char) :
    natToDigitsAux fuel n acc ≠ [] := by
  induction fuel generalizing n acc with
  | zero => simp [natToDigitsAux]
  | succ f ih =>
    rw [natToDigitsAux]
    split
    · simp
    · exact ih _ _

theorem natToDigitsAux_digits (fuel : Nat) :
    ∀ n acc, n ≤ fuel → (∀ c ∈ acc, c.isDigit = true) →
      ∀ c ∈ natToDigitsAux fuel n acc, c.isDigit = true := by
  induction fuel with
  | zero =>
    intro n acc hn hacc c hc
    have h0 : n = 0 := Nat.le_zero.mp hn
    subst h0
    rw [show natToDigitsAux 0 0 acc = digitChar 0 :: acc from rfl] at hc
    rcases List.mem_cons.mp hc with h | h
    · rw [h]; decide
    · exact hacc c h
  | succ f ih =>
    intro n acc hn hacc c hc
    rw [natToDigitsAux] at hc
    by_cases h10 : n < 10
    · rw [if_pos h10] at hc
      rcases List.mem_cons.mp hc with h | h
      · rw [h]; exact digitChar_isDigit h10
      · exact hacc c h
    · rw [if_neg h10] at hc
      refine ih (n / 10) _ (by omega) ?_ c hc
      intro d hd
      rcases List.mem_cons.mp hd with h | h
      · rw [h]; exact digitChar_isDigit (by omega)
      · exact hacc d h

theorem natToDigitsAux_foldl (fuel : Nat) :
    ∀ n acc (a : Nat), n ≤ fuel →
      ∃ w, 0 < w ∧
        (natToDigitsAux fuel n acc).foldl (fun x c => 10 * x + (c.toNat - 48)) a =
          acc.foldl (fun x c => 10 * x + (c.toNat - 48)) (a * w + n) := by
  induction fuel with
  | zero =>
    intro n acc a hn
    have h0 : n = 0 := Nat.le_zero.mp hn
    subst h0
    refine ⟨10, by omega, ?_⟩
    rw [show natToDigitsAux 0 0 acc = digitChar 0 :: acc from rfl, List.foldl_cons,
      show (digitChar 0).toNat = 48 from by decide]
    congr 1
    omega
  | succ f ih =>
    intro n acc a hn
    by_cases h10 : n < 10
    · refine ⟨10, by omega, ?_⟩
      rw [natToDigitsAux, if_pos h10, List.foldl_cons, digitChar_toNat h10]
      congr 1
      omega
    · obtain ⟨w, hw, heq⟩ := ih (n / 10) (digitChar (n % 10) :: acc) a (by omega)
      refine ⟨10 * w, by omega, ?_⟩
      rw [natToDigitsAux, if_neg h10, heq, List.foldl_cons,
        digitChar_toNat (by omega : n % 10 < 10)]
      congr 1
      have h1 : a * (10 * w) = 10 * (a * w) := by ring
      rw [h1]
      generalize a * w = b
      omega

theorem digitsToNat_natToDigits (n : Nat) : digitsToNat (natToDigits n) = n := by
  obtain ⟨w, hw, heq⟩ := natToDigitsAux_foldl n n [] 0 (le_refl n)
  unfold digitsToNat natToDigits
  rw [heq]
  simp

theorem natToDigits_digits (n : Nat) : ∀ c ∈ natToDigits n, c.isDigit = true :=
  natToDigitsAux_digits n n [] (le_refl n) (by simp)

theorem natToDigits_ne_nil (n : Nat) : natToDigits n ≠ [] :=
  natToDigitsAux_ne_nil n n []

theorem span_append (p : Char → Bool) (d r : List Char)
    (hd : ∀ c ∈ d, p c = true) (hr : ∀ c, r.head? = some c → p c = false) :
    (d ++ r).takeWhile p = d ∧ (d ++ r).dropWhile p = r := by
  induction d with
  | nil =>
    simp only [List.nil_append]
    cases r with
    | nil => exact ⟨rfl, rfl⟩
    | cons c u =>
      have hc := hr c rfl
      simp [List.takeWhile_cons, List.dropWhile_cons, hc]
  | cons a d ih =>
    have ha := hd a (by simp)
    have h2 := ih (fun c hc => hd c (by simp [hc]))
    simp [List.takeWhile_cons, List.dropWhile_cons, ha, h2.1, h2.2]

theorem starOrNum_star (r : List Char) : starOrNum ('*' :: r) = some (none, r) := rfl

theorem starOrNum_digits (d r : List Char) (hne : d ≠ [])
    (hd : ∀ c ∈ d, c.isDigit = true) (hr : ∀ c, r.head? = some c → c.isDigit = false) :
    starOrNum (d ++ r) = some (some (digitsToNat d), r) := by
  obtain ⟨tk, dk⟩ := span_append Char.isDigit d r hd hr
  cases d with
  | nil => exact absurd rfl hne
  | cons a u =>
    have ha := hd a (by simp)
    have hstar : a ≠ '*' := by
      rintro rfl
      simp at ha
    rw [starOrNum]
    rw [show ((a :: u) ++ r).head? = some a from rfl]
    rw [if_neg (by simp only [Option.some.injEq]; exact hstar)]
    simp only [tk, dk]
    rw [if_neg (by simp)]

theorem starOrNum_isSome_of_digit (a : Char) (u : List Char) (ha : a.isDigit = true) :
    ∃ v w, starOrNum (a :: u) = some (some v, w) := by
  have hstar : a ≠ '*' := by
    rintro rfl
    simp at ha
  rw [starOrNum]
  rw [show (a :: u).head? = some a from rfl]
  rw [if_neg (by simp only [Option.some.injEq]; exact hstar)]
  rw [show (a :: u).takeWhile Char.isDigit = a :: u.takeWhile Char.isDigit from by
    simp [List.takeWhile_cons, ha]]
  rw [if_neg (by simp)]
  exact ⟨_, _, rfl⟩

theorem starOrNum_inv (s : List Char) (e : Option Nat) (r : List Char)
    (h : starOrNum s = some (e, r)) :
    (e = none ∧ s = '*' :: r) ∨
      (∃ d, e = some (digitsToNat d) ∧ d ≠ [] ∧ (∀ c ∈ d, c.isDigit = true) ∧ s = d ++ r) := by
  rw [starOrNum] at h
  by_cases hh : s.head? = some '*'
  · rw [if_pos hh] at h
    left
    injection h with h
    injection h with h1 h2
    cases s with
    | nil => simp at hh
    | cons c u =>
      rw [show (c :: u).head? = some c from rfl] at hh
      injection hh with hh
      subst hh
      simp only [List.tail_cons] at h2
      exact ⟨h1.symm, by rw [h2]⟩
  · rw [if_neg hh] at h
    simp only at h
    by_cases htk : s.takeWhile Char.isDigit = []
    · rw [if_pos htk] at h
      cases h
    · rw [if_neg htk] at h
      injection h with h
      injection h with h1 h2
      right
      refine ⟨s.takeWhile Char.isDigit, h1.symm, htk, ?_, ?_⟩
      · intro c hc
        exact List.mem_takeWhile_imp hc
      · rw [h2.symm, List.takeWhile_append_dropWhile]

theorem byteRange_decode_encode (n : Nat) (e t : Option Nat) (rest : List Char)
    (hrest : t = none ∨ ∀ c, rest.head? = some c → c.isDigit = false) :
    ByteRangeHeaderType.decode (ByteRangeHeaderType.encode ⟨n, e, t⟩ ++ rest) =
      some ⟨n, e, t⟩ := by
  rw [ByteRangeHeaderType.encode]
  simp only [List.append_assoc, List.cons_append]
  have hspan := span_append Char.isDigit (natToDigits n)
    ('-' :: (brOpt e ++ ('/' :: (brOpt t ++ rest))))
    (natToDigits_digits n)
    (by intro c hc; injection hc with hc; rw [← hc]; decide)
  unfold ByteRangeHeaderType.decode
  simp only [hspan.1, hspan.2, List.head?_cons, List.tail_cons]
  rw [if_neg (natToDigits_ne_nil n), if_pos trivial]
  have hmid : starOrNum (brOpt e ++ ('/' :: (brOpt t ++ rest))) =
      some (e, '/' :: (brOpt t ++ rest)) := by
    cases e with
    | none => rw [show brOpt none = ['*'] from rfl, List.cons_append, List.nil_append,
        starOrNum_star]
    | some k => rw [show brOpt (some k) = natToDigits k from rfl,
        starOrNum_digits (natToDigits k) ('/' :: (brOpt t ++ rest)) (natToDigits_ne_nil k)
          (natToDigits_digits k)
          (by intro c hc; injection hc with hc; rw [← hc]; decide),
        digitsToNat_natToDigits]
  have hlast : starOrNum (brOpt t ++ rest) = some (t, rest) := by
    cases t with
    | none => rw [show brOpt none = ['*'] from rfl, List.cons_append, List.nil_append,
        starOrNum_star]
    | some m =>
      rcases hrest with h | hr
      · cases h
      rw [show brOpt (some m) = natToDigits m from rfl,
        starOrNum_digits (natToDigits m) rest (natToDigits_ne_nil m)
          (natToDigits_digits m) hr, digitsToNat_natToDigits]
  rw [hmid]
  simp only [List.head?_cons, List.tail_cons]
  rw [if_pos trivial]
  rw [hlast]
  simp only [digitsToNat_natToDigits]

theorem byteRange_decode_form (d1 e2 e3 r : List Char) (h1 : d1 ≠ [])
    (hd1 : ∀ c ∈ d1, c.isDigit = true)
    (h2 : e2 = ['*'] ∨ e2 ≠ [] ∧ ∀ c ∈ e2, c.isDigit = true)
    (h3 : e3 = ['*'] ∨ e3 ≠ [] ∧ ∀ c ∈ e3, c.isDigit = true) :
    (ByteRangeHeaderType.decode (d1 ++ '-' :: (e2 ++ '/' :: (e3 ++ r)))).isSome = true := by
  have hspan := span_append Char.isDigit d1 ('-' :: (e2 ++ '/' :: (e3 ++ r))) hd1
    (by intro c hc; injection hc with hc; rw [← hc]; decide)
  unfold ByteRangeHeaderType.decode
  simp only [hspan.1, hspan.2, List.head?_cons, List.tail_cons]
  rw [if_neg h1, if_pos trivial]
  obtain ⟨v2, hmid⟩ : ∃ v2, starOrNum (e2 ++ '/' :: (e3 ++ r)) =
      some (v2, '/' :: (e3 ++ r)) := by
    rcases h2 with rfl | ⟨hne, hd⟩
    · exact ⟨none, by rw [List.cons_append, List.nil_append, starOrNum_star]⟩
    · exact ⟨some (digitsToNat e2), starOrNum_digits e2 _ hne hd
        (by intro c hc; injection hc with hc; rw [← hc]; decide)⟩
  rw [hmid]
  simp only [List.head?_cons, List.tail_cons]
  rw [if_pos trivial]
  obtain ⟨v3, w3, hlast⟩ : ∃ v3 w3, starOrNum (e3 ++ r) = some (v3, w3) := by
    rcases h3 with rfl | ⟨hne, hd⟩
    · exact ⟨none, r, by rw [List.cons_append, List.nil_append, starOrNum_star]⟩
    · cases e3 with
      | nil => exact absurd rfl hne
      | cons a u =>
        obtain ⟨v, w, hw⟩ := starOrNum_isSome_of_digit a (u ++ r) (hd a (by simp))
        exact ⟨some v, w, by rw [List.cons_append]; exact hw⟩
  rw [hlast]
  rfl

theorem byteRange_decode_isSome (s : List Char)
    (h : (ByteRangeHeaderType.decode s).isSome = true) :
    ∃ d1 e2 e3 r, s = d1 ++ '-' :: (e2 ++ '/' :: (e3 ++ r)) ∧
      d1 ≠ [] ∧ (∀ c ∈ d1, c.isDigit = true) ∧
      (e2 = ['*'] ∨ e2 ≠ [] ∧ ∀ c ∈ e2, c.isDigit = true) ∧
      (e3 = ['*'] ∨ e3 ≠ [] ∧ ∀ c ∈ e3, c.isDigit = true) := by
  unfold ByteRangeHeaderType.decode at h
  by_cases htk : s.takeWhile Char.isDigit = []
  · rw [if_pos htk] at h
    simp at h
  · rw [if_neg htk] at h
    by_cases hh : (s.dropWhile Char.isDigit).head? = some '-'
    · rw [if_pos hh] at h
      rcases hsn : starOrNum (s.dropWhile Char.isDigit).tail with _ | ⟨e, r3⟩
      · rw [hsn] at h
        simp at h
      · rw [hsn] at h
        dsimp only at h
        by_cases hh2 : r3.head? = some '/'
        · rw [if_pos hh2] at h
          rcases hsn2 : starOrNum r3.tail with _ | ⟨t, r4⟩
          · rw [hsn2] at h
            simp at h
          · obtain ⟨dw, hdw⟩ : ∃ u, s.dropWhile Char.isDigit = '-' :: u := by
              cases hdrop : s.dropWhile Char.isDigit with
              | nil => rw [hdrop] at hh; cases hh
              | cons c u =>
                rw [hdrop] at hh
                rw [show (c :: u).head? = some c from rfl] at hh
                injection hh with hh
                exact ⟨u, by rw [hh]⟩
            obtain ⟨r3t, hr3⟩ : ∃ u, r3 = '/' :: u := by
              cases hc : r3 with
              | nil => rw [hc] at hh2; cases hh2
              | cons c u =>
                rw [hc] at hh2
                rw [show (c :: u).head? = some c from rfl] at hh2
                injection hh2 with hh2
                exact ⟨u, by rw [hh2]⟩
            have hsn' : starOrNum dw = some (e, r3) := by
              rw [hdw] at hsn
              simpa using hsn
            have hsn2' : starOrNum r3t = some (t, r4) := by
              rw [hr3] at hsn2
              simpa using hsn2
            have hs : s = s.takeWhile Char.isDigit ++ s.dropWhile Char.isDigit :=
              (List.takeWhile_append_dropWhile Char.isDigit s).symm
            have hdig : ∀ c ∈ s.takeWhile Char.isDigit, c.isDigit = true :=
              fun c hc => List.mem_takeWhile_imp hc
            rcases starOrNum_inv _ _ _ hsn' with ⟨he, h2eq⟩ | ⟨d2, he, hd2ne, hd2dig, h2eq⟩ <;>
              rcases starOrNum_inv _ _ _ hsn2' with ⟨ht, h3eq⟩ | ⟨d3, ht, hd3ne, hd3dig, h3eq⟩
            · refine ⟨_, ['*'], ['*'], r4, ?_, htk, hdig, Or.inl rfl, Or.inl rfl⟩
              conv_lhs => rw [hs]
              rw [hdw, h2eq, hr3, h3eq] <;> rfl
            · refine ⟨_, ['*'], d3, r4, ?_, htk, hdig, Or.inl rfl, Or.inr ⟨hd3ne, hd3dig⟩⟩
              conv_lhs => rw [hs]
              rw [hdw, h2eq, hr3, h3eq] <;> rfl
            · refine ⟨_, d2, ['*'], r4, ?_, htk, hdig, Or.inr ⟨hd2ne, hd2dig⟩, Or.inl rfl⟩
              conv_lhs => rw [hs]
              rw [hdw, h2eq, hr3, h3eq] <;> rfl
            · refine ⟨_, d2, d3, r4, ?_, htk, hdig, Or.inr ⟨hd2ne, hd2dig⟩,
                Or.inr ⟨hd3ne, hd3dig⟩⟩
              conv_lhs => rw [hs]
              rw [hdw, h2eq, hr3, h3eq] <;> rfl
        · rw [if_neg hh2] at h
          simp at h
    · rw [if_neg hh] at h
      simp at h

/-- Counterexample to C9: `re.match` anchors only at the start, so decode
accepts `1-2/3x` (trailing garbage) instead of failing; and `\d+` accepts
`0`, so the claimed "start is a positive integer" is not enforced either. -/
theorem C9_counterexample :
    ByteRangeHeaderType.decode (cs "1-2/3x") = some ⟨1, some 2, some 3⟩ ∧
    ByteRangeHeaderType.decode (cs "0-2/3") = some ⟨0, some 2, some 3⟩ := ⟨rfl, rfl⟩

/-- C9 (amended): byte-range decode succeeds exactly on the strings that
BEGIN with `digits-('*'|digits)/('*'|digits)` — the digit runs may be zero or
carry leading zeros and anything may follow, since `regex.match` does not
anchor the end; on `start-end/total` followed by text that cannot extend the
last digit run it returns `(start, end, total)` with `*` decoded as `None`;
and a decode failure does surface through `MSRPHeader.decoded` as a header
parsing error naming `Byte-Range` and the offending text. -/
theorem C9_byte_range (n : Nat) (e t : Option Nat) (rest s : List Char)
    (hrest : t = none ∨ ∀ c, rest.head? = some c → c.isDigit = false) :
    ByteRangeHeaderType.decode (ByteRangeHeaderType.encode ⟨n, e, t⟩ ++ rest) =
      some ⟨n, e, t⟩ ∧
    ((ByteRangeHeaderType.decode s).isSome = true ↔
      ∃ d1 e2 e3 r, s = d1 ++ '-' :: (e2 ++ '/' :: (e3 ++ r)) ∧
        d1 ≠ [] ∧ (∀ c ∈ d1, c.isDigit = true) ∧
        (e2 = ['*'] ∨ e2 ≠ [] ∧ ∀ c ∈ e2, c.isDigit = true) ∧
        (e3 = ['*'] ∨ e3 ≠ [] ∧ ∀ c ∈ e3, c.isDigit = true)) ∧
    (ByteRangeHeaderType.decode s = none →
      ByteRangeHeader.decoded s = .error (cs "Byte-Range", s)) := by
  refine ⟨byteRange_decode_encode n e t rest hrest, ⟨byteRange_decode_isSome s, ?_⟩, ?_⟩
  · rintro ⟨d1, e2, e3, r, rfl, h1, hd1, h2, h3⟩
    exact byteRange_decode_form d1 e2 e3 r h1 hd1 h2 h3
  · intro hnone
    rw [ByteRangeHeader.decoded, hnone]

/-- Witness for C9 at `n = 1`, `end = 2`, `total = 3`, trailing `"x"`,
and the undecodable string `"bad"`. -/
theorem C9_byte_range_witness :
    ((some 3 : Option Nat) = none ∨
      ∀ c, (cs "x").head? = some c → c.isDigit = false) ∧
    (ByteRangeHeaderType.decode (ByteRangeHeaderType.encode ⟨1, some 2, some 3⟩ ++ cs "x") =
      some ⟨1, some 2, some 3⟩ ∧
    ((ByteRangeHeaderType.decode (cs "bad")).isSome = true ↔
      ∃ d1 e2 e3 r, cs "bad" = d1 ++ '-' :: (e2 ++ '/' :: (e3 ++ r)) ∧
        d1 ≠ [] ∧ (∀ c ∈ d1, c.isDigit = true) ∧
        (e2 = ['*'] ∨ e2 ≠ [] ∧ ∀ c ∈ e2, c.isDigit = true) ∧
        (e3 = ['*'] ∨ e3 ≠ [] ∧ ∀ c ∈ e3, c.isDigit = true)) ∧
    (ByteRangeHeaderType.decode (cs "bad") = none →
      ByteRangeHeader.decoded (cs "bad") = .error (cs "Byte-Range", cs "bad"))) :=
  ⟨Or.inr (fun c hc => by
      rw [show (cs "x").head? = some 'x' from rfl] at hc
      injection hc with hc
      rw [← hc]
      decide),
    C9_byte_range 1 (some 2) (some 3) (cs "x") (cs "bad")
      (Or.inr (fun c hc => by
        rw [show (cs "x").head? = some 'x' from rfl] at hc
        injection hc with hc
        rw [← hc]
        decide))⟩

/-- C10: with the Failure-Report / Success-Report header absent the
properties default to `'yes'` / `'no'`; with the header present and
well-formed (its encoded value decodes) they return the decoded value —
every allowed value is a nonempty string, so the `or` default never
overrides it. -/
theorem C10_report_defaults (headers : List (List Char × List Char))
    (pr : List Char × List Char) (v : List Char) :
    (headers.find? (fun p => p.1 = cs "Failure-Report") = none →
      MSRPData.failure_report headers = some (cs "yes")) ∧
    (headers.find? (fun p => p.1 = cs "Success-Report") = none →
      MSRPData.success_report headers = some (cs "no")) ∧
    (headers.find? (fun p => p.1 = cs "Failure-Report") = some pr →
      FailureReportHeaderType.decode pr.2 = some v →
      MSRPData.failure_report headers = some v) ∧
    (headers.find? (fun p => p.1 = cs "Success-Report") = some pr →
      SuccessReportHeaderType.decode pr.2 = some v →
      MSRPData.success_report headers = some v) := by
  refine ⟨?_, ?_, ?_, ?_⟩
  · intro hf
    rw [MSRPData.failure_report, hf]
    rfl
  · intro hf
    rw [MSRPData.success_report, hf]
    rfl
  · intro hf hd
    rw [MSRPData.failure_report, hf]
    dsimp only
    rw [hd]
    dsimp only [pyOr]
    rw [FailureReportHeaderType.decode] at hd
    by_cases hv : pr.2 = cs "yes" ∨ pr.2 = cs "no" ∨ pr.2 = cs "partial"
    · rw [if_pos hv] at hd
      injection hd with hd
      subst hd
      rcases hv with h | h | h <;> rw [h] <;> rfl
    · rw [if_neg hv] at hd
      cases hd
  · intro hf hd
    rw [MSRPData.success_report, hf]
    dsimp only
    rw [hd]
    dsimp only [pyOr]
    rw [SuccessReportHeaderType.decode] at hd
    by_cases hv : pr.2 = cs "yes" ∨ pr.2 = cs "no"
    · rw [if_pos hv] at hd
      injection hd with hd
      subst hd
      rcases hv with h | h <;> rw [h] <;> rfl
    · rw [if_neg hv] at hd
      cases hd

/-- Witness for C10: an empty header map takes both defaults, and maps
carrying `Failure-Report: no` / `Success-Report: yes` return those values. -/
theorem C10_report_defaults_witness :
    MSRPData.failure_report [] = some (cs "yes") ∧
    MSRPData.success_report [] = some (cs "no") ∧
    MSRPData.failure_report [(cs "Failure-Report", cs "no")] = some (cs "no") ∧
    MSRPData.success_report [(cs "Success-Report", cs "yes")] = some (cs "yes") :=
  ⟨(C10_report_defaults [] ([], []) []).1 rfl,
    (C10_report_defaults [] ([], []) []).2.1 rfl,
    (C10_report_defaults [(cs "Failure-Report", cs "no")]
      (cs "Failure-Report", cs "no") (cs "no")).2.2.1 rfl rfl,
    (C10_report_defaults [(cs "Success-Report", cs "yes")]
      (cs "Success-Report", cs "yes") (cs "yes")).2.2.2 rfl rfl⟩

theorem matchKV_pair (excl : Char) (n v r : List Char) (hn : n ≠ [])
    (hnw : ∀ c ∈ n, isWordChar c = true) (hv : v ≠ []) (hvq : ∀ c ∈ v, c ≠ '"') :
    matchKV excl (n ++ '=' :: '"' :: (v ++ '"' :: r)) =
      some ((n, '"' :: (v ++ ['"'])), r) := by
  have hspan := span_append isWordChar n ('=' :: '"' :: (v ++ '"' :: r)) hnw
    (by intro c hc; injection hc with hc; rw [← hc]; decide)
  unfold matchKV
  simp only [hspan.1, hspan.2, List.head?_cons, List.tail_cons]
  rw [if_neg hn, if_pos trivial, if_pos trivial]
  have hspan2 := span_append (fun c => c != '"') v ('"' :: r)
    (by intro c hc; simpa using hvq c hc)
    (by intro c hc; injection hc with hc; rw [← hc]; decide)
  simp only [hspan2.1, hspan2.2]
  rw [if_neg hv]

theorem matchKV_fail (excl c : Char) (u : List Char) (hc : isWordChar c = false) :
    matchKV excl (c :: u) = none := by
  unfold matchKV
  rw [show (c :: u).takeWhile isWordChar = [] from by
    simp [List.takeWhile_cons, hc]]
  rw [if_pos rfl]

theorem findallF_step (excl : Char) (fuel : Nat) (s : List Char)
    (kv : List Char × List Char) (r : List Char) (hs : s ≠ [])
    (h : matchKV excl s = some (kv, r)) :
    findallF excl (fuel + 1) s = kv :: findallF excl fuel r := by
  cases s with
  | nil => exact absurd rfl hs
  | cons c u =>
    rw [findallF, h]

theorem findallF_skip1 (excl : Char) (fuel : Nat) (c : Char) (u : List Char)
    (hc : isWordChar c = false) :
    findallF excl (fuel + 1) (c :: u) = findallF excl fuel u := by
  rw [findallF, matchKV_fail excl c u hc]

theorem kvItem_length (pr : List Char × List Char) :
    (kvItem pr).length = pr.1.length + pr.2.length + 3 := by
  simp [kvItem]
  omega

theorem findall_items (excl c1 : Char) (hc1 : isWordChar c1 = false) :
    ∀ ps : List (List Char × List Char), ∀ fuel : Nat,
      (∀ pr ∈ ps, pr.1 ≠ [] ∧ (∀ c ∈ pr.1, isWordChar c = true) ∧
        pr.2 ≠ [] ∧ (∀ c ∈ pr.2, c ≠ '"')) →
      (joinSep [c1, ' '] (ps.map kvItem)).length ≤ fuel →
      findallF excl fuel (joinSep [c1, ' '] (ps.map kvItem)) =
        ps.map (fun pr => (pr.1, '"' :: (pr.2 ++ ['"']))) := by
  intro ps
  induction ps with
  | nil =>
    intro fuel _ _
    cases fuel <;> rfl
  | cons p ps ih =>
    intro fuel hvalid hlen
    obtain ⟨hp1, hp1w, hp2, hp2q⟩ := hvalid p (by simp)
    have hitem := kvItem_length p
    have hp1pos : 0 < p.1.length := List.length_pos.mpr hp1
    cases ps with
    | nil =>
      simp only [List.map_cons, List.map_nil, joinSep] at hlen ⊢
      cases fuel with
      | zero =>
        rw [hitem] at hlen
        omega
      | succ f =>
        rw [show kvItem p = p.1 ++ '=' :: '"' :: (p.2 ++ '"' :: []) from rfl]
        rw [findallF_step excl f _ _ []
          (by cases h : p.1 with
            | nil => exact absurd h hp1
            | cons a u => simp [h])
          (matchKV_pair excl p.1 p.2 [] hp1 hp1w hp2 hp2q)]
        cases f <;> rfl
    | cons q ps2 =>
      simp only [List.map_cons, joinSep] at hlen ⊢
      rw [show kvItem p ++ [c1, ' '] ++ joinSep [c1, ' '] (kvItem q :: List.map kvItem ps2) =
            p.1 ++ '=' :: '"' :: (p.2 ++ '"' ::
              (c1 :: ' ' :: joinSep [c1, ' '] (kvItem q :: List.map kvItem ps2))) from by
        rw [show kvItem p = p.1 ++ '=' :: '"' :: (p.2 ++ ['"']) from rfl]
        simp [List.append_assoc]] at hlen ⊢
      have hjlen : 0 ≤ (joinSep [c1, ' '] (kvItem q :: List.map kvItem ps2)).length :=
        Nat.zero_le _
      simp only [List.length_append, List.length_cons] at hlen
      cases fuel with
      | zero => omega
      | succ f =>
        rw [findallF_step excl f _ _
          (c1 :: ' ' :: joinSep [c1, ' '] (kvItem q :: List.map kvItem ps2))
          (by cases h : p.1 with
            | nil => exact absurd h hp1
            | cons a u => simp [h])
          (matchKV_pair excl p.1 p.2 _ hp1 hp1w hp2 hp2q)]
        cases f with
        | zero => omega
        | succ f2 =>
          rw [findallF_skip1 excl f2 c1 _ hc1]
          cases f2 with
          | zero => omega
          | succ f3 =>
            rw [findallF_skip1 excl f3 ' ' _ (by decide)]
            rw [show (kvItem q :: List.map kvItem ps2) = List.map kvItem (q :: ps2) from rfl]
            rw [ih f3 (fun pr hpr => hvalid pr (by simp [hpr]))
              (by simp only [List.map_cons]; omega)]
            simp only [List.map_cons]

theorem pyStripQuotes_quoted (v : List Char) (hv : v ≠ []) (hq : ∀ c ∈ v, c ≠ '"') :
    pyStripQuotes ('"' :: (v ++ ['"'])) = v := by
  cases v with
  | nil => exact absurd rfl hv
  | cons a u =>
    have ha : (decide (a = '"')) = false := by simp [hq a (by simp)]
    cases hw : (a :: u).reverse with
    | nil => simp at hw
    | cons b w =>
      have hb : b ∈ a :: u := by
        rw [← List.mem_reverse, hw]
        simp
      have hbq : (decide (b = '"')) = false := by simp [hq b hb]
      unfold pyStripQuotes
      rw [show ('"' :: ((a :: u) ++ ['"'])).dropWhile (fun c => c = '"') =
        ((a :: u) ++ ['"']).dropWhile (fun c => c = '"') from by
          rw [List.dropWhile_cons]
          simp]
      rw [show ((a :: u) ++ ['"']).dropWhile (fun c => c = '"') = (a :: u) ++ ['"'] from by
        rw [List.cons_append, List.dropWhile_cons, ha]
        simp]
      rw [List.reverse_append, hw]
      rw [show (['"'].reverse ++ b :: w).dropWhile (fun c => c = '"') = b :: w from by
        rw [show (['"'].reverse ++ b :: w) = '"' :: (b :: w) from rfl]
        rw [List.dropWhile_cons]
        simp only [decide_True, if_true, List.dropWhile_cons, hbq]
        rw [if_neg (by simp)]]
      rw [← hw, List.reverse_reverse]

theorem foldl_pyDictInsert_strip (ps : List (List Char × List Char)) :
    ∀ acc, (∀ pr ∈ ps, pr.2 ≠ [] ∧ ∀ c ∈ pr.2, c ≠ '"') →
      ps.Pairwise (fun a b => a.1 ≠ b.1) →
      (∀ pr ∈ ps, acc.any (fun x => decide (x.1 = pr.1)) = false) →
      (ps.map (fun pr => (pr.1, '"' :: (pr.2 ++ ['"'])))).foldl
        (fun m pr => pyDictInsert m pr.1 (pyStripQuotes pr.2)) acc = acc ++ ps := by
  induction ps with
  | nil =>
    intro acc _ _ _
    simp
  | cons p ps ih =>
    intro acc hval hpw hacc
    simp only [List.map_cons, List.foldl_cons]
    obtain ⟨hp2, hp2q⟩ := hval p (by simp)
    obtain ⟨hpw1, hpw2⟩ := List.pairwise_cons.mp hpw
    rw [show pyDictInsert acc p.1 (pyStripQuotes ('"' :: (p.2 ++ ['"']))) =
          acc ++ [(p.1, p.2)] from by
      rw [pyStripQuotes_quoted p.2 hp2 hp2q]
      unfold pyDictInsert
      rw [if_neg (by rw [hacc p (by simp)]; exact Bool.false_ne_true)]]
    rw [ih (acc ++ [(p.1, p.2)]) (fun pr hpr => hval pr (by simp [hpr])) hpw2 ?_]
    · simp [List.append_assoc]
    · intro pr hpr
      rw [List.any_append]
      rw [hacc pr (by simp [hpr])]
      simp only [List.any_cons, List.any_nil, Bool.false_or, Bool.or_false]
      simp [hpw1 pr hpr]

theorem pyPartition_no_sep (sep : Char) (a : List Char) (ha : ∀ c ∈ a, c ≠ sep) :
    pyPartition sep a = (a, false, []) := by
  induction a with
  | nil => rfl
  | cons c u ih =>
    rw [pyPartition, if_neg (ha c (by simp))]
    rw [ih (fun d hd => ha d (by simp [hd]))]

theorem pyPartition_found (sep : Char) (a b : List Char) (ha : ∀ c ∈ a, c ≠ sep) :
    pyPartition sep (a ++ sep :: b) = (a, true, b) := by
  induction a with
  | nil => simp [pyPartition]
  | cons c u ih =>
    rw [List.cons_append, pyPartition, if_neg (ha c (by simp))]
    rw [ih (fun d hd => ha d (by simp [hd]))]

theorem digitsToNat_zeros (k : Nat) (d : List Char) :
    digitsToNat (List.replicate k '0' ++ d) = digitsToNat d := by
  induction k with
  | zero => rfl
  | succ m ih =>
    rw [List.replicate_succ, List.cons_append]
    unfold digitsToNat at ih ⊢
    rw [List.foldl_cons]
    rw [show (10 * 0 + ('0'.toNat - 48)) = 0 from rfl]
    exact ih

theorem natToDigitsAux_len1 (fuel n : Nat) (acc : List Char) (h : n < 10) :
    (natToDigitsAux fuel n acc).length = acc.length + 1 := by
  cases fuel with
  | zero => rfl
  | succ f =>
    rw [natToDigitsAux, if_pos h]
    rfl

theorem natToDigitsAux_len2 (fuel : Nat) : ∀ n acc, n ≤ fuel → n < 100 →
    (natToDigitsAux fuel n acc).length ≤ acc.length + 2 := by
  induction fuel with
  | zero =>
    intro n acc hn _
    have h0 : n = 0 := Nat.le_zero.mp hn
    subst h0
    rw [show natToDigitsAux 0 0 acc = digitChar 0 :: acc from rfl]
    simp
  | succ f ih =>
    intro n acc hn h100
    by_cases h10 : n < 10
    · rw [natToDigitsAux, if_pos h10]
      simp
    · rw [natToDigitsAux, if_neg h10]
      rw [natToDigitsAux_len1 f (n / 10) _ (by omega)]
      simp only [List.length_cons]
      omega

theorem natToDigitsAux_len3 (fuel : Nat) : ∀ n acc, n ≤ fuel → n < 1000 →
    (natToDigitsAux fuel n acc).length ≤ acc.length + 3 := by
  induction fuel with
  | zero =>
    intro n acc hn _
    have h0 : n = 0 := Nat.le_zero.mp hn
    subst h0
    rw [show natToDigitsAux 0 0 acc = digitChar 0 :: acc from rfl]
    simp
  | succ f ih =>
    intro n acc hn h1000
    by_cases h10 : n < 10
    · rw [natToDigitsAux, if_pos h10]
      simp
    · rw [natToDigitsAux, if_neg h10]
      have := natToDigitsAux_len2 f (n / 10) (digitChar (n % 10) :: acc) (by omega) (by omega)
      simp only [List.length_cons] at this
      omega

theorem natToDigits_len3 (n : Nat) (h : n < 1000) : (natToDigits n).length ≤ 3 := by
  have := natToDigitsAux_len3 n n [] (le_refl n) h
  simpa using this

theorem pad3_length (n : Nat) (h : n < 1000) : (pad3 n).length = 3 := by
  unfold pad3
  rw [List.length_append, List.length_replicate]
  have := natToDigits_len3 n h
  omega

theorem pad3_digits (n : Nat) : ∀ c ∈ pad3 n, c.isDigit = true := by
  intro c hc
  unfold pad3 at hc
  rcases List.mem_append.mp hc with h | h
  · rw [List.eq_of_mem_replicate h]
    decide
  · exact natToDigits_digits n c h

theorem pad3_ne_nil (n : Nat) : pad3 n ≠ [] := by
  unfold pad3
  intro h
  exact natToDigits_ne_nil n (List.append_eq_nil.mp h).2

theorem digitsToNat_pad3 (n : Nat) : digitsToNat (pad3 n) = n := by
  unfold pad3
  rw [digitsToNat_zeros, digitsToNat_natToDigits]

theorem pad3_no_space (n : Nat) : ∀ c ∈ pad3 n, c ≠ ' ' := by
  intro c hc heq
  have hd := pad3_digits n c hc
  rw [heq] at hd
  cases hd

theorem paramList_roundtrip (ps : List (List Char × List Char))
    (hvalid : ∀ pr ∈ ps, pr.1 ≠ [] ∧ (∀ c ∈ pr.1, isWordChar c = true) ∧
      pr.2 ≠ [] ∧ (∀ c ∈ pr.2, c ≠ '"'))
    (hdist : ps.Pairwise (fun a b => a.1 ≠ b.1)) :
    ParameterListHeaderType.decode (ParameterListHeaderType.encode ps) = ps := by
  unfold ParameterListHeaderType.decode ParameterListHeaderType.encode reFindall
  rw [show cs ", " = [',', ' '] from rfl]
  rw [findall_items ',' ',' (by decide) ps _ hvalid (le_refl _)]
  rw [foldl_pyDictInsert_strip ps []
    (fun pr hpr => ⟨(hvalid pr hpr).2.2.1, (hvalid pr hpr).2.2.2⟩) hdist
    (fun pr _ => rfl)]
  simp

theorem contentDisposition_roundtrip (cd : ContentDisposition)
    (hdisp : cd.disposition ≠ []) (hdsemi : ∀ c ∈ cd.disposition, c ≠ ';')
    (hvalid : ∀ pr ∈ cd.parameters, pr.1 ≠ [] ∧ (∀ c ∈ pr.1, isWordChar c = true) ∧
      pr.2 ≠ [] ∧ (∀ c ∈ pr.2, c ≠ '"'))
    (hdist : cd.parameters.Pairwise (fun a b => a.1 ≠ b.1)) :
    ContentDispositionHeaderType.decode (ContentDispositionHeaderType.encode cd) =
      some cd := by
  unfold ContentDispositionHeaderType.decode ContentDispositionHeaderType.encode
  cases hps : cd.parameters with
  | nil =>
    rw [show joinSep (cs "; ") (cd.disposition :: List.map kvItem []) =
      cd.disposition from rfl]
    rw [pyPartition_no_sep ';' cd.disposition hdsemi]
    rw [if_neg (by simpa using hdisp)]
    cases cd
    simp only at hps
    simp [hps, reFindall, findallF]
  | cons q ps2 =>
    rw [show joinSep (cs "; ") (cd.disposition :: List.map kvItem (q :: ps2)) =
      cd.disposition ++ [';', ' '] ++ joinSep [';', ' '] (List.map kvItem (q :: ps2))
      from rfl]
    rw [show cd.disposition ++ [';', ' '] ++ joinSep [';', ' '] (List.map kvItem (q :: ps2)) =
      cd.disposition ++ ';' :: (' ' :: joinSep [';', ' '] (List.map kvItem (q :: ps2)))
      from by simp [List.append_assoc]]
    rw [pyPartition_found ';' cd.disposition _ hdsemi]
    rw [if_neg (by simpa using hdisp)]
    unfold reFindall
    rw [show (' ' :: joinSep [';', ' '] (List.map kvItem (q :: ps2))).length =
      (joinSep [';', ' '] (List.map kvItem (q :: ps2))).length + 1 from rfl]
    rw [findallF_skip1 ';' _ ' ' _ (by decide)]
    rw [findall_items ';' ';' (by decide) (q :: ps2) _ (hps ▸ hvalid) (le_refl _)]
    rw [foldl_pyDictInsert_strip (q :: ps2) []
      (fun pr hpr => ⟨((hps ▸ hvalid) pr hpr).2.2.1, ((hps ▸ hvalid) pr hpr).2.2.2⟩)
      (hps ▸ hdist) (fun pr _ => rfl)]
    cases cd
    simp only at hps
    simp [hps]

theorem digest_roundtrip (ps : List (List Char × List Char))
    (hvalid : ∀ pr ∈ ps, pr.1 ≠ [] ∧ (∀ c ∈ pr.1, isWordChar c = true) ∧
      pr.2 ≠ [] ∧ (∀ c ∈ pr.2, c ≠ '"'))
    (hdist : ps.Pairwise (fun a b => a.1 ≠ b.1)) :
    DigestHeaderType.decode (DigestHeaderType.encode ps) = some ps := by
  unfold DigestHeaderType.decode DigestHeaderType.encode
  rw [show cs "Digest " ++ ParameterListHeaderType.encode ps =
    cs "Digest" ++ ' ' :: ParameterListHeaderType.encode ps from by
      rw [show cs "Digest " = cs "Digest" ++ [' '] from rfl]
      simp]
  rw [pyPartition_found ' ' (cs "Digest") _ (by decide)]
  rw [if_pos ⟨rfl, rfl⟩]
  rw [paramList_roundtrip ps hvalid hdist]

theorem pyIntParse_digits (d : List Char) (hne : d ≠ [])
    (hd : ∀ c ∈ d, c.isDigit = true) :
    pyIntParse d = some (digitsToNat d : Int) := by
  cases d with
  | nil => exact absurd rfl hne
  | cons a u =>
    have ha : a ≠ '-' := by
      intro h
      have := hd a (by simp)
      rw [h] at this
      cases this
    unfold pyIntParse
    split
    next d2 heq =>
      injection heq with h1 _
      exact absurd h1 ha
    next =>
      rw [if_pos ⟨hne, hd⟩]

theorem integer_roundtrip (z : Int) :
    IntegerHeaderType.decode (IntegerHeaderType.encode z) = some z := by
  unfold IntegerHeaderType.decode IntegerHeaderType.encode intToDigits
  by_cases hz : z < 0
  · rw [if_pos hz]
    have h1 : pyIntParse ('-' :: natToDigits z.natAbs) =
        if natToDigits z.natAbs ≠ [] ∧ (∀ c ∈ natToDigits z.natAbs, c.isDigit = true) then
          some (-(digitsToNat (natToDigits z.natAbs) : Int))
        else none := rfl
    rw [h1, if_pos ⟨natToDigits_ne_nil _, natToDigits_digits _⟩, digitsToNat_natToDigits]
    exact congrArg some (by omega)
  · rw [if_neg hz]
    rw [pyIntParse_digits _ (natToDigits_ne_nil _) (natToDigits_digits _),
      digitsToNat_natToDigits]
    exact congrArg some (by omega)

theorem status_roundtrip (st : Status) (hcode : st.code < 1000)
    (hcm : st.comment ≠ some []) :
    StatusHeaderType.decode (StatusHeaderType.encode st) = some st := by
  obtain ⟨code, comment⟩ := st
  simp only at hcode hcm
  unfold StatusHeaderType.encode StatusHeaderType.decode
  cases comment with
  | none =>
    simp only
    rw [show cs "000 " ++ pad3 code = cs "000" ++ ' ' :: pad3 code from by
      rw [show cs "000 " = cs "000" ++ [' '] from rfl]
      simp]
    rw [pyPartition_found ' ' (cs "000") _ (by decide)]
    rw [if_pos ⟨rfl, rfl⟩]
    rw [pyPartition_no_sep ' ' (pad3 code) (pad3_no_space code)]
    rw [if_pos ⟨pad3_ne_nil code, pad3_digits code, pad3_length code hcode⟩]
    rw [digitsToNat_pad3]
    rfl
  | some cm =>
    have hcmne : cm ≠ [] := by
      intro h
      exact hcm (by rw [h])
    simp only
    rw [show cs "000 " ++ pad3 code ++ ' ' :: cm =
      cs "000" ++ ' ' :: (pad3 code ++ ' ' :: cm) from by
        rw [show cs "000 " = cs "000" ++ [' '] from rfl]
        simp]
    rw [pyPartition_found ' ' (cs "000") _ (by decide)]
    rw [if_pos ⟨rfl, rfl⟩]
    rw [pyPartition_found ' ' (pad3 code) cm (pad3_no_space code)]
    rw [if_pos ⟨pad3_ne_nil code, pad3_digits code, pad3_length code hcode⟩]
    rw [digitsToNat_pad3]
    rw [if_neg hcmne]

/-- Counterexample to C8: the empty string is in `dict`'s value domain, but
`ParameterListHeaderType` encodes `{'a': ''}` as `a=""`, which its own regex
cannot match (`"[^"]+"` needs a nonempty quoted body and `[^",]+` cannot
start at the quote), so decoding returns the empty dict, not the value. -/
theorem C8_counterexample :
    ParameterListHeaderType.encode [(cs "a", [])] = cs "a=\"\"" ∧
    ParameterListHeaderType.decode (ParameterListHeaderType.encode [(cs "a", [])]) =
      [] :=
  ⟨rfl, rfl⟩

/-- C8 (amended): decode∘encode is the identity for the simple grammar (on
all strings), the integer grammar (on all integers), the limited-choice
grammars (on their allowed values), the byte-range grammar (on
start/end/total values), the status grammar (codes below 1000, comment
absent or nonempty), and the parameter-list, content-disposition and digest
grammars on maps with nonempty word-character names, distinct names, and
nonempty quote-free values (content-disposition also needs a nonempty,
semicolon-free disposition); it fails on empty parameter values. -/
theorem C8_header_roundtrip
    (sv fv : List Char) (z : Int) (br : ByteRange) (st : Status)
    (ps : List (List Char × List Char)) (cd : ContentDisposition)
    (dps : List (List Char × List Char))
    (hfv : fv = cs "yes" ∨ fv = cs "no" ∨ fv = cs "partial")
    (hst : st.code < 1000 ∧ st.comment ≠ some [])
    (hps : (∀ pr ∈ ps, pr.1 ≠ [] ∧ (∀ c ∈ pr.1, isWordChar c = true) ∧
      pr.2 ≠ [] ∧ (∀ c ∈ pr.2, c ≠ '"')) ∧ ps.Pairwise (fun a b => a.1 ≠ b.1))
    (hcd : cd.disposition ≠ [] ∧ (∀ c ∈ cd.disposition, c ≠ ';') ∧
      (∀ pr ∈ cd.parameters, pr.1 ≠ [] ∧ (∀ c ∈ pr.1, isWordChar c = true) ∧
        pr.2 ≠ [] ∧ (∀ c ∈ pr.2, c ≠ '"')) ∧
      cd.parameters.Pairwise (fun a b => a.1 ≠ b.1))
    (hdps : (∀ pr ∈ dps, pr.1 ≠ [] ∧ (∀ c ∈ pr.1, isWordChar c = true) ∧
      pr.2 ≠ [] ∧ (∀ c ∈ pr.2, c ≠ '"')) ∧ dps.Pairwise (fun a b => a.1 ≠ b.1)) :
    SimpleHeaderType.decode (SimpleHeaderType.encode sv) = sv ∧
    IntegerHeaderType.decode (IntegerHeaderType.encode z) = some z ∧
    FailureReportHeaderType.decode (SimpleHeaderType.encode fv) = some fv ∧
    ByteRangeHeaderType.decode (ByteRangeHeaderType.encode br) = some br ∧
    StatusHeaderType.decode (StatusHeaderType.encode st) = some st ∧
    ParameterListHeaderType.decode (ParameterListHeaderType.encode ps) = ps ∧
    ContentDispositionHeaderType.decode (ContentDispositionHeaderType.encode cd) =
      some cd ∧
    DigestHeaderType.decode (DigestHeaderType.encode dps) = some dps := by
  obtain ⟨b1, b2, b3⟩ := br
  refine ⟨rfl, integer_roundtrip z, ?_, ?_, status_roundtrip st hst.1 hst.2,
    paramList_roundtrip ps hps.1 hps.2,
    contentDisposition_roundtrip cd hcd.1 hcd.2.1 hcd.2.2.1 hcd.2.2.2,
    digest_roundtrip dps hdps.1 hdps.2⟩
  · show FailureReportHeaderType.decode fv = some fv
    rw [FailureReportHeaderType.decode, if_pos hfv]
  · have h := byteRange_decode_encode b1 b2 b3 []
      (Or.inr (fun c hc => by simp at hc))
    rw [List.append_nil] at h
    exact h

/-- Witness for C8 at one concrete value per grammar. -/
theorem C8_header_roundtrip_witness :
    ((cs "partial" = cs "yes" ∨ cs "partial" = cs "no" ∨ cs "partial" = cs "partial") ∧
      ((Status.mk 200 (some (cs "OK"))).code < 1000 ∧
        (Status.mk 200 (some (cs "OK"))).comment ≠ some []) ∧
      ((∀ pr ∈ [(cs "a", cs "x y"), (cs "b", cs "2")], pr.1 ≠ [] ∧
          (∀ c ∈ pr.1, isWordChar c = true) ∧ pr.2 ≠ [] ∧ (∀ c ∈ pr.2, c ≠ '"')) ∧
        List.Pairwise (fun a b => a.1 ≠ b.1) [(cs "a", cs "x y"), (cs "b", cs "2")])) ∧
    (SimpleHeaderType.decode (SimpleHeaderType.encode (cs "text")) = cs "text" ∧
      IntegerHeaderType.decode (IntegerHeaderType.encode (-5)) = some (-5) ∧
      FailureReportHeaderType.decode (SimpleHeaderType.encode (cs "partial")) =
        some (cs "partial") ∧
      ByteRangeHeaderType.decode (ByteRangeHeaderType.encode ⟨1, none, some 2⟩) =
        some ⟨1, none, some 2⟩ ∧
      StatusHeaderType.decode (StatusHeaderType.encode ⟨200, some (cs "OK")⟩) =
        some ⟨200, some (cs "OK")⟩ ∧
      ParameterListHeaderType.decode
        (ParameterListHeaderType.encode [(cs "a", cs "x y"), (cs "b", cs "2")]) =
        [(cs "a", cs "x y"), (cs "b", cs "2")] ∧
      ContentDispositionHeaderType.decode (ContentDispositionHeaderType.encode
        ⟨cs "attachment", [(cs "filename", cs "foo.txt")]⟩) =
        some ⟨cs "attachment", [(cs "filename", cs "foo.txt")]⟩ ∧
      DigestHeaderType.decode (DigestHeaderType.encode [(cs "nonce", cs "abc")]) =
        some [(cs "nonce", cs "abc")]) :=
  ⟨⟨by decide, by decide, by decide⟩,
    C8_header_roundtrip (cs "text") (cs "partial") (-5) ⟨1, none, some 2⟩
      ⟨200, some (cs "OK")⟩ [(cs "a", cs "x y"), (cs "b", cs "2")]
      ⟨cs "attachment", [(cs "filename", cs "foo.txt")]⟩ [(cs "nonce", cs "abc")]
      (by decide) (by decide) (by decide) (by decide) (by decide)⟩
